import Mathlib

/-!
# VCAP_SERVICES binding resolver

A shallow embedding of `vcap_binding_resolver.go` (package `httpd`): the parser,
the type/provider filter and the materializer that writes every credential of a
matching binding to a file below `workingDir/<binding_guid>`.

Conventions of the embedding.

* A Go `map[string]V` is an association list `List (String × V)` whose keys are
  pairwise distinct (`GoMap.WF`).  The order of the list is the order in which a
  `range` statement visits the entries; Go leaves that order unspecified, so
  results are stated for every list.
* A Go slice result is a `GoSlice`: `none` is the `nil` slice.
* The Go standard library (`path/filepath`, `os`, `encoding/json`) and the
  `servicebindings` package of packit are not part of the repository.  They are
  modelled here: `filepath.Join` follows the Unix implementation character by
  character; `os` is a file system of directories and regular files with a
  fixed access policy; `json.Unmarshal` is a parameter.
* A function that touches the file system takes the file system state and
  returns the new one.
* A Go result `(value, error)` whose value is the zero value exactly when the
  error is set is an `Except`: `.error e` stands for `(nil, e)`.
-/

namespace Httpd

/-! ## Go values -/

/-- The Go map `map[string]V`: entries in the order `range` visits them. -/
abbrev GoMap (V : Type) := List (String × V)

namespace GoMap

/-- The keys of a map. -/
def keys {V : Type} (m : GoMap V) : List String := m.map Prod.fst

/-- Well-formedness of a map: no key occurs twice. -/
def WF {V : Type} (m : GoMap V) : Prop := (keys m).Nodup

/-- The two-valued lookup `v, ok := m[k]`. -/
def get? {V : Type} : GoMap V → String → Option V
  | [], _ => none
  | (k', v) :: rest, k => if k = k' then some v else get? rest k

/-- The assignment `m[k] = v`: replaces the value of an existing key in place and
adds a missing key. -/
def set {V : Type} : GoMap V → String → V → GoMap V
  | [], k, v => [(k, v)]
  | (k', v') :: rest, k, v => if k = k' then (k', v) :: rest else (k', v') :: set rest k v

/-- The one-valued lookup `m[k]` of a map of slices: the zero value (the empty
slice) for a missing key. -/
def index {V : Type} (m : GoMap (List V)) (k : String) : List V := (get? m k).getD []

end GoMap

/-- The Go slice `[]T`; `none` is the `nil` slice. -/
abbrev GoSlice (T : Type) := Option (List T)

namespace GoSlice

/-- The elements of a slice; the `nil` slice has none. -/
def toList {T : Type} (s : GoSlice T) : List T := s.getD []

/-- The builtin `append(s, x)`. -/
def append {T : Type} (s : GoSlice T) (x : T) : GoSlice T := some (toList s ++ [x])

end GoSlice

/-- The error numbers the file system model can report. -/
inductive Errno where
  | ENOENT
  | EACCES
  | EEXIST
  | ENOTDIR
  | EISDIR
  deriving DecidableEq, Repr

/-- The Go `error` values of the model: `*fs.PathError` of package `os`
(operation, resolved path, error number) and the error `json.Unmarshal`
returns (message and offset). -/
inductive GoError where
  | PathError (op : String) (path : List String) (errno : Errno)
  | SyntaxError (msg : String) (offset : Nat)
  deriving DecidableEq, Repr

/-- Equality of Go results is decidable. -/
instance instDecidableEqExcept {ε α : Type} [DecidableEq ε] [DecidableEq α] :
    DecidableEq (Except ε α)
  | .ok a, .ok b => if h : a = b then isTrue (by rw [h]) else isFalse (by intro h1; cases h1; exact h rfl)
  | .error a, .error b =>
    if h : a = b then isTrue (by rw [h]) else isFalse (by intro h1; cases h1; exact h rfl)
  | .ok _, .error _ => isFalse (by intro h; cases h)
  | .error _, .ok _ => isFalse (by intro h; cases h)

/-! ## `path/filepath` (Unix) -/

namespace filepath

/-- Splits a path at every separator `/`; `cur` holds the characters of the
element being read, last character first. -/
def splitAux : List Char → List Char → List String
  | [], cur => [String.mk cur.reverse]
  | c :: cs, cur =>
    if c = '/' then String.mk cur.reverse :: splitAux cs [] else splitAux cs (c :: cur)

/-- The elements of a path, empty elements included. -/
def split (path : String) : List String := splitAux path.data []

/-- One step of `Clean` over the elements read so far (`out`, last element
first): an empty element and `.` are dropped, `..` removes the preceding real
element, is dropped at the root, and is kept in front of a relative path. -/
def cleanStep (rooted : Bool) (out : List String) (e : String) : List String :=
  if e = "" ∨ e = "." then out
  else if e = ".." then
    match out with
    | [] => if rooted then [] else [".."]
    | top :: rest => if top = ".." then ".." :: top :: rest else rest
  else e :: out

/-- Whether a path starts at the root. -/
def isRooted (path : String) : Bool :=
  match path.data with
  | c :: _ => c = '/'
  | [] => false

/-- The elements of the shortest path equivalent to `path`, first element
first. -/
def cleanElems (path : String) : List String :=
  ((split path).foldl (cleanStep (isRooted path)) []).reverse

/-- The function `filepath.Clean`. -/
def Clean (path : String) : String :=
  if isRooted path then "/" ++ "/".intercalate (cleanElems path)
  else if cleanElems path = [] then "."
  else "/".intercalate (cleanElems path)

/-- The function `filepath.Join` for two elements: empty elements are ignored,
the rest is joined with `/` and cleaned; the result is empty only when both
elements are. -/
def Join (a b : String) : String :=
  if a ≠ "" then Clean (a ++ "/" ++ b)
  else if b ≠ "" then Clean b
  else ""

end filepath

/-! ## `os`: the file system -/

namespace os

/-- What a path names: a directory or a regular file with its contents. -/
inductive Node where
  | dir
  | file (content : String)
  deriving DecidableEq, Repr

/-- The calls of package `os` the program makes. -/
inductive Call where
  | MkdirAll (path : String)
  | WriteFile (name : String) (data : String)
  deriving DecidableEq, Repr

/-- The state of the file system.  Nodes are named by their elements from the
root.  `denied p` says that the node `p` may neither be created nor written (a
read-only or restricted location); the policy does not change.  `calls` records
the calls made so far, oldest first. -/
structure FS where
  cwd : List String
  denied : List String → Bool
  node : List String → Option Node
  calls : List Call

/-- The node a path names: the elements from the root, a relative path being
taken from the working directory `cwd`, and `..` at the root being the root. -/
def resolve (cwd : List String) (path : String) : List String :=
  ((filepath.split path).foldl (filepath.cleanStep true)
    (if filepath.isRooted path then [] else cwd.reverse)).reverse

/-- The system call `mkdir` on a resolved path: the node must be allowed and
absent and its parent must be a directory. -/
def mkdirAt (fs : FS) (p : List String) : Option GoError × FS :=
  if fs.denied p then (some (.PathError "mkdir" p .EACCES), fs)
  else
    match fs.node p with
    | some _ => (some (.PathError "mkdir" p .EEXIST), fs)
    | none =>
      match fs.node p.dropLast with
      | some .dir => (none, { fs with node := Function.update fs.node p (some .dir) })
      | some (.file _) => (some (.PathError "mkdir" p .ENOTDIR), fs)
      | none => (some (.PathError "mkdir" p .ENOENT), fs)

/-- The body of `os.MkdirAll` on a resolved path given last element first: a
directory is left alone, a file is an error, and a missing node is created after
its parent has been made; the root is never created. -/
def mkdirAllAt (fs : FS) : List String → Option GoError × FS
  | [] =>
    match fs.node [] with
    | some .dir => (none, fs)
    | some (.file _) => (some (.PathError "mkdir" [] .ENOTDIR), fs)
    | none => (some (.PathError "mkdir" [] .ENOENT), fs)
  | e :: up =>
    match fs.node (e :: up).reverse with
    | some .dir => (none, fs)
    | some (.file _) => (some (.PathError "mkdir" (e :: up).reverse .ENOTDIR), fs)
    | none =>
      match mkdirAllAt fs up with
      | (some err, fs1) => (some err, fs1)
      | (none, fs1) => mkdirAt fs1 (e :: up).reverse

/-- The function `os.MkdirAll(path, 0755)`: creates the directory `path` and
every missing parent; an existing directory is not an error.  Directories made
before a failure stay. -/
def MkdirAll (fs : FS) (path : String) : Option GoError × FS :=
  let fs0 : FS := { fs with calls := fs.calls ++ [Call.MkdirAll path] }
  if path = "" then (some (.PathError "mkdir" [] .ENOENT), fs0)
  else mkdirAllAt fs0 (resolve fs0.cwd path).reverse

/-- The function `os.WriteFile(name, data, 0777)`: creates the file or truncates
an existing one and writes `data`; the parent must be a directory and `name`
must not be one. -/
def WriteFile (fs : FS) (name : String) (data : String) : Option GoError × FS :=
  let fs0 : FS := { fs with calls := fs.calls ++ [Call.WriteFile name data] }
  let p := resolve fs0.cwd name
  if name = "" then (some (.PathError "open" [] .ENOENT), fs0)
  else if fs0.denied p then (some (.PathError "open" p .EACCES), fs0)
  else
    match fs0.node p with
    | some .dir => (some (.PathError "open" p .EISDIR), fs0)
    | some (.file _) =>
      (none, { fs0 with node := Function.update fs0.node p (some (.file data)) })
    | none =>
      match fs0.node p.dropLast with
      | some .dir =>
        (none, { fs0 with node := Function.update fs0.node p (some (.file data)) })
      | some (.file _) => (some (.PathError "open" p .ENOTDIR), fs0)
      | none => (some (.PathError "open" p .ENOENT), fs0)

/-- The function `os.ReadFile(name)`: the whole contents of a regular file. -/
def ReadFile (fs : FS) (name : String) : Except GoError String :=
  if name = "" then .error (.PathError "open" [] .ENOENT)
  else
    match fs.node (resolve fs.cwd name) with
    | some (.file content) => .ok content
    | some .dir => .error (.PathError "read" (resolve fs.cwd name) .EISDIR)
    | none => .error (.PathError "open" (resolve fs.cwd name) .ENOENT)

/-- The path is a directory. -/
def isDir (fs : FS) (q : List String) : Prop := fs.node q = some .dir

/-- The path is a regular file. -/
def isFile (fs : FS) (q : List String) : Prop := ∃ c, fs.node q = some (.file c)

end os

/-! ## `servicebindings` (packit) -/

namespace servicebindings

/-- The type `servicebindings.Entry`: a reference to the file of one credential.
It holds the path, not the contents. -/
structure Entry where
  path : String
  deriving DecidableEq, Repr

/-- The constructor `servicebindings.NewEntry(path)`. -/
def NewEntry (path : String) : Entry := { path := path }

/-- The method `Entry.ReadString()`: reads the file again on every call. -/
def Entry.ReadString (e : Entry) (fs : os.FS) : Except GoError String :=
  os.ReadFile fs e.path

/-- The type `servicebindings.Binding`. -/
structure Binding where
  Name : String := ""
  Path : String := ""
  Type_ : String := ""
  Provider : String := ""
  Entries : GoMap Entry := []
  deriving DecidableEq, Repr

end servicebindings

open servicebindings

/-! ## The resolver (`vcap_binding_resolver.go`) -/

/-- The type `VcapBinding`. -/
structure VcapBinding where
  Name : String := ""
  Label : String := ""
  Provider : String := ""
  BindingGuid : String := ""
  Credentials : GoMap String := []
  deriving DecidableEq, Repr

/-- The type `VcapServices`: service group name to the bindings of the group. -/
abbrev VcapServices := GoMap (List VcapBinding)

/-- The function `ParseVcapServices`; `unmarshal` is `json.Unmarshal` into a
fresh `VcapServices`. -/
def ParseVcapServices (unmarshal : String → Except GoError VcapServices)
    (contents : String) : Except GoError VcapServices :=
  match unmarshal contents with
  | .error err => .error err
  | .ok vcapServices => .ok vcapServices

/-- The condition of the filter on one binding. -/
def matchesTypeAndProvider (typ provider : String) (binding : VcapBinding) : Bool :=
  binding.Label = typ ∧ (provider = "" ∨ provider = binding.Provider)

/-- The inner loop of `FilterOnTypeAndProvider` over the bindings of the group
`key`. -/
def filterGroup (typ provider key : String) :
    List VcapBinding → VcapServices → VcapServices
  | [], filteredVcapServices => filteredVcapServices
  | binding :: service, filteredVcapServices =>
    if matchesTypeAndProvider typ provider binding then
      match GoMap.get? filteredVcapServices key with
      | some bindingsList =>
        filterGroup typ provider key service
          (GoMap.set filteredVcapServices key (bindingsList ++ [binding]))
      | none =>
        filterGroup typ provider key service (GoMap.set filteredVcapServices key [binding])
    else filterGroup typ provider key service filteredVcapServices

/-- The outer loop of `FilterOnTypeAndProvider` over the groups. -/
def filterGroups (typ provider : String) :
    List (String × List VcapBinding) → VcapServices → VcapServices
  | [], filteredVcapServices => filteredVcapServices
  | (key, service) :: rest, filteredVcapServices =>
    filterGroups typ provider rest (filterGroup typ provider key service filteredVcapServices)

/-- The method `(*VcapServices).FilterOnTypeAndProvider`. -/
def VcapServices.FilterOnTypeAndProvider (s : VcapServices) (typ provider : String) :
    VcapServices :=
  filterGroups typ provider s []

/-- The loop of `credentialsToEntries` over the credentials still to write. -/
def credentialsLoop (bindingDirectory : String) :
    List (String × String) → GoMap Entry → os.FS → Except GoError (GoMap Entry) × os.FS
  | [], entries, fs => (.ok entries, fs)
  | (key, credential) :: rest, entries, fs =>
    match os.WriteFile fs (filepath.Join bindingDirectory key) credential with
    | (some err, fs1) => (.error err, fs1)
    | (none, fs1) =>
      credentialsLoop bindingDirectory rest
        (GoMap.set entries key (NewEntry (filepath.Join bindingDirectory key))) fs1

/-- The method `(*VcapBinding).credentialsToEntries`. -/
def VcapBinding.credentialsToEntries (_b : VcapBinding) (credentials : GoMap String)
    (bindingDirectory : String) (fs : os.FS) : Except GoError (GoMap Entry) × os.FS :=
  credentialsLoop bindingDirectory credentials [] fs

/-- The method `(*VcapBinding).ToServiceBinding`. -/
def VcapBinding.ToServiceBinding (b : VcapBinding) (workingDir : String) (fs : os.FS) :
    Except GoError Binding × os.FS :=
  match os.MkdirAll fs (filepath.Join workingDir b.BindingGuid) with
  | (some err, fs1) => (.error err, fs1)
  | (none, fs1) =>
    match b.credentialsToEntries b.Credentials (filepath.Join workingDir b.BindingGuid) fs1 with
    | (.error err, fs2) => (.error err, fs2)
    | (.ok entries, fs2) =>
      (.ok { Path := filepath.Join workingDir b.BindingGuid, Entries := entries }, fs2)

/-- The inner loop of `ToServiceBindings` over the bindings of one group. -/
def bindingsLoop (workingDir : String) :
    List VcapBinding → GoSlice Binding → os.FS → Except GoError (GoSlice Binding) × os.FS
  | [], svcBindings, fs => (.ok svcBindings, fs)
  | vcapBinding :: rest, svcBindings, fs =>
    match vcapBinding.ToServiceBinding workingDir fs with
    | (.error err, fs1) => (.error err, fs1)
    | (.ok binding, fs1) => bindingsLoop workingDir rest (GoSlice.append svcBindings binding) fs1

/-- The outer loop of `ToServiceBindings` over the groups. -/
def servicesLoop (workingDir : String) :
    List (String × List VcapBinding) → GoSlice Binding → os.FS →
      Except GoError (GoSlice Binding) × os.FS
  | [], svcBindings, fs => (.ok svcBindings, fs)
  | (_, vcapBindings) :: rest, svcBindings, fs =>
    match bindingsLoop workingDir vcapBindings svcBindings fs with
    | (.error err, fs1) => (.error err, fs1)
    | (.ok svcBindings1, fs1) => servicesLoop workingDir rest svcBindings1 fs1

/-- The method `(*VcapServices).ToServiceBindings`. -/
def VcapServices.ToServiceBindings (s : VcapServices) (workingDir : String) (fs : os.FS) :
    Except GoError (GoSlice Binding) × os.FS :=
  servicesLoop workingDir s none fs

/-- The method `(*VcapBindingResolver).Resolve`.  `environ` is the process
environment, `unmarshal` is `json.Unmarshal`, and `order` is the order in which
`range` visits the groups of the filtered map. -/
def Resolve (environ : String → Option String)
    (unmarshal : String → Except GoError VcapServices)
    (order : VcapServices → VcapServices)
    (typ provider workingDir : String) (fs : os.FS) :
    Except GoError (GoSlice Binding) × os.FS :=
  match environ "VCAP_SERVICES" with
  | none => (.ok (some []), fs)
  | some envVar =>
    match ParseVcapServices unmarshal envVar with
    | .error err => (.error err, fs)
    | .ok vcapServices =>
      match VcapServices.ToServiceBindings
          (order (vcapServices.FilterOnTypeAndProvider typ provider)) workingDir fs with
      | (.error err, fs1) => (.error err, fs1)
      | (.ok serviceBindings, fs1) => (.ok serviceBindings, fs1)

/-- Every binding of a set, group after group. -/
def allBindings (s : VcapServices) : List VcapBinding := s.flatMap Prod.snd

/-! ## Notions used to state the properties -/

/-- The matching bindings of the groups named `g`, group after group. -/
def matchingOf (typ provider g : String) (s : VcapServices) : List VcapBinding :=
  (s.filter (fun kv => kv.1 = g)).flatMap
    (fun kv => kv.2.filter (matchesTypeAndProvider typ provider))

/-- The node of the file `credentialsToEntries` writes for the key `k`. -/
def credentialNode (fs : os.FS) (bindingDirectory k : String) : List String :=
  os.resolve fs.cwd (filepath.Join bindingDirectory k)

/-- The node of the directory `ToServiceBinding` makes for the binding `b`. -/
def bindingNode (fs : os.FS) (workingDir : String) (b : VcapBinding) : List String :=
  os.resolve fs.cwd (filepath.Join workingDir b.BindingGuid)

/-- The working directory is unwritable for the set `s`: in the state `fs`,
making the directory of any binding of the set fails and so does writing any of
its credential files. -/
def Unwritable (fs : os.FS) (workingDir : String) (s : VcapServices) : Prop :=
  ∀ b ∈ allBindings s,
    (os.MkdirAll fs (filepath.Join workingDir b.BindingGuid)).1 ≠ none ∧
    ∀ kv ∈ b.Credentials,
      (os.WriteFile fs
        (filepath.Join (filepath.Join workingDir b.BindingGuid) kv.1) kv.2).1 ≠ none

/-- The call of package `os` that fails while the binding `b` is materialized
from the state `fs1`: either `MkdirAll` of the binding directory returns `e`, or
the directory is made, the credentials `written` are written, and `WriteFile`
of the next credential returns `e`.  `fs2` is the state that call leaves. -/
def failingCall (workingDir : String) (b : VcapBinding) (fs1 : os.FS) (e : GoError)
    (fs2 : os.FS) : Prop :=
  ((os.MkdirAll fs1 (filepath.Join workingDir b.BindingGuid)).1 = some e ∧
      fs2 = (os.MkdirAll fs1 (filepath.Join workingDir b.BindingGuid)).2) ∨
    ((os.MkdirAll fs1 (filepath.Join workingDir b.BindingGuid)).1 = none ∧
      ∃ written k v rest, b.Credentials = written ++ (k, v) :: rest ∧
        (∃ entries, (credentialsLoop (filepath.Join workingDir b.BindingGuid) written []
          (os.MkdirAll fs1 (filepath.Join workingDir b.BindingGuid)).2).1 = .ok entries) ∧
        (os.WriteFile
          (credentialsLoop (filepath.Join workingDir b.BindingGuid) written []
            (os.MkdirAll fs1 (filepath.Join workingDir b.BindingGuid)).2).2
          (filepath.Join (filepath.Join workingDir b.BindingGuid) k) v).1 = some e ∧
        fs2 = (os.WriteFile
          (credentialsLoop (filepath.Join workingDir b.BindingGuid) written []
            (os.MkdirAll fs1 (filepath.Join workingDir b.BindingGuid)).2).2
          (filepath.Join (filepath.Join workingDir b.BindingGuid) k) v).2)

/-! ## Concrete inputs -/

/-- A file system with the root and the directory `/proc`; nothing may be
created or written below `/proc`. -/
def procFS : os.FS :=
  { cwd := [],
    denied := fun p => p.head? = some "proc",
    node := fun p => if p = [] ∨ p = ["proc"] then some .dir else none,
    calls := [] }

/-- The first binding of the test `when there are multiple bindings`. -/
def htpasswd1 : VcapBinding :=
  { Name := "htpasswd-1", Label := "htpasswd", Provider := "provider-1",
    BindingGuid := "deadbeef-1", Credentials := [(".htpasswd", "user:password")] }

/-- The second binding of that test. -/
def htpasswd2 : VcapBinding :=
  { Name := "htpasswd-2", Label := "htpasswd", Provider := "provider-1",
    BindingGuid := "deadbeef-2", Credentials := [(".htpasswd", "user:password")] }

/-- The third binding of that test. -/
def htpasswd3 : VcapBinding :=
  { Name := "htpasswd-3", Label := "htpasswd", Provider := "provider-2",
    BindingGuid := "deadbeef-3", Credentials := [(".htpasswd", "user:password")] }

/-- The binding of the other service of that test. -/
def otherService : VcapBinding :=
  { Name := "other-service", Label := "other-service", BindingGuid := "deadbeef-4" }

/-- The set of that test. -/
def testServices : VcapServices :=
  [("htpasswd", [htpasswd1, htpasswd2, htpasswd3]), ("other-service", [otherService])]

/-- A set with the single group `htpasswd` of that test. -/
def singleGroup : VcapServices := [("htpasswd", [htpasswd1, htpasswd2, htpasswd3])]

/-- An environment in which `VCAP_SERVICES` is set to `vcap`. -/
def envWith (vcap : String) : String → Option String :=
  fun name => if name = "VCAP_SERVICES" then some vcap else none

/-- An environment without `VCAP_SERVICES`. -/
def envWithout : String → Option String := fun _ => none

/-- A decoder that knows three documents: `multiple` is the set of the test,
`single` its first group alone, and everything else, such as the `{123` of the
test, is a syntax error. -/
def testUnmarshal : String → Except GoError VcapServices :=
  fun contents =>
    if contents = "multiple" then .ok testServices
    else if contents = "single" then .ok singleGroup
    else .error (.SyntaxError "invalid character" 2)

/-- A binding with two credential keys that `Join` sends to the same file. -/
def sameFile : VcapBinding :=
  { Name := "same", Label := "htpasswd", BindingGuid := "g",
    Credentials := [("a", "1"), ("a/", "2")] }

/-- A binding whose second credential cannot be written: the directory `sub` of
its file does not exist. -/
def missingParent : VcapBinding :=
  { Name := "missing", Label := "htpasswd", BindingGuid := "deadbeef-5",
    Credentials := [("x", "1"), ("sub/y", "2")] }

/-- A binding in which the keys `a` and `a/` are joined to one file and the key
`b` to a file of its own. -/
def mixedKeys : VcapBinding :=
  { Name := "mixed", Label := "htpasswd", BindingGuid := "m",
    Credentials := [("a", "1"), ("a/", "2"), ("b", "3")] }

/-- A set in which the second binding cannot be materialized. -/
def failingServices : VcapServices :=
  [("htpasswd", [htpasswd1, missingParent, htpasswd3])]

/-- The state after `htpasswd1` has been materialized below `/w` from
`procFS`. -/
def afterFirst : os.FS := (bindingsLoop "/w" [htpasswd1] none procFS).2

/-- The state the failing `WriteFile` of `missingParent` leaves. -/
def afterFailure : os.FS :=
  (os.WriteFile
    (credentialsLoop "/w/deadbeef-5" [("x", "1")] [] (os.MkdirAll afterFirst "/w/deadbeef-5").2).2
    "/w/deadbeef-5/sub/y" "2").2

/-! ## Maps and slices -/

namespace GoMap

theorem get?_set {V : Type} (m : GoMap V) (k k' : String) (v : V) :
    get? (set m k v) k' = if k' = k then some v else get? m k' := by
  induction m with
  | nil => simp [set, get?]
  | cons hd tl ih =>
    obtain ⟨k0, v0⟩ := hd
    by_cases h : k = k0
    · subst h
      by_cases h2 : k' = k <;> simp [set, get?, h2]
    · by_cases h2 : k' = k0
      · subst h2
        have h3 : ¬ k' = k := fun e => h e.symm
        simp [set, get?, h, h3]
      · simp [set, get?, h, h2, ih]

theorem get?_eq_none {V : Type} (m : GoMap V) (k : String) (h : k ∉ keys m) :
    get? m k = none := by
  induction m with
  | nil => rfl
  | cons hd tl ih =>
    obtain ⟨k0, v0⟩ := hd
    simp only [keys, List.map_cons, List.mem_cons, not_or] at h
    simp only [get?, h.1, if_false]
    exact ih h.2

theorem mem_keys_of_get? {V : Type} (m : GoMap V) (k : String) (v : V)
    (h : get? m k = some v) : k ∈ keys m := by
  by_contra hk
  rw [get?_eq_none m k hk] at h
  cases h

theorem get?_of_mem {V : Type} (m : GoMap V) (hm : WF m) (k : String) (v : V)
    (h : (k, v) ∈ m) : get? m k = some v := by
  induction m with
  | nil => cases h
  | cons hd tl ih =>
    obtain ⟨k0, v0⟩ := hd
    simp only [WF, keys, List.map_cons, List.nodup_cons] at hm
    rcases List.mem_cons.1 h with h1 | h1
    · cases h1
      simp [get?]
    · have hne : k ≠ k0 := by
        intro e
        subst e
        exact hm.1 (List.mem_map_of_mem Prod.fst h1)
      simp only [get?, hne, if_false]
      exact ih hm.2 h1

theorem mem_of_get? {V : Type} (m : GoMap V) (k : String) (v : V)
    (h : get? m k = some v) : (k, v) ∈ m := by
  induction m with
  | nil => cases h
  | cons hd tl ih =>
    obtain ⟨k0, v0⟩ := hd
    by_cases hk : k = k0
    · subst hk
      simp only [get?, if_true, Option.some.injEq] at h
      subst h
      exact List.mem_cons_self _ _
    · simp only [get?, hk, if_false] at h
      exact List.mem_cons_of_mem _ (ih h)

theorem mem_keys_iff {V : Type} (m : GoMap V) (k : String) :
    k ∈ keys m ↔ ∃ v, get? m k = some v := by
  constructor
  · intro h
    induction m with
    | nil => simp [keys] at h
    | cons hd tl ih =>
      obtain ⟨k0, v0⟩ := hd
      by_cases hk : k = k0
      · exact ⟨v0, by simp [get?, hk]⟩
      · simp only [keys, List.map_cons, List.mem_cons, hk, false_or] at h
        obtain ⟨v, hv⟩ := ih h
        exact ⟨v, by simp [get?, hk, hv]⟩
  · rintro ⟨v, hv⟩
    exact mem_keys_of_get? m k v hv

theorem keys_set {V : Type} (m : GoMap V) (k : String) (v : V) :
    ∀ k', k' ∈ keys (set m k v) ↔ k' = k ∨ k' ∈ keys m := by
  intro k'
  induction m with
  | nil => simp [set, keys]
  | cons hd tl ih =>
    obtain ⟨k0, v0⟩ := hd
    by_cases h : k = k0
    · subst h
      simp [set, keys]
    · simp only [keys] at ih
      simp only [set, h, if_false, keys, List.map_cons, List.mem_cons, ih]
      tauto

end GoMap

/-! ## The filter -/

theorem index_filterGroup (typ provider key : String) (service : List VcapBinding)
    (acc : VcapServices) (g : String) :
    GoMap.index (filterGroup typ provider key service acc) g =
      if g = key then GoMap.index acc g ++ service.filter (matchesTypeAndProvider typ provider)
      else GoMap.index acc g := by
  induction service generalizing acc with
  | nil => simp [filterGroup]
  | cons b rest ih =>
    by_cases hb : matchesTypeAndProvider typ provider b = true
    · cases hget : GoMap.get? acc key with
      | none =>
        simp only [filterGroup, hb, if_true, hget]
        rw [ih]
        by_cases hg : g = key
        · subst hg
          simp [GoMap.index, GoMap.get?_set, hget, List.filter_cons, hb]
        · simp [GoMap.index, GoMap.get?_set, hg]
      | some l =>
        simp only [filterGroup, hb, if_true, hget]
        rw [ih]
        by_cases hg : g = key
        · subst hg
          simp [GoMap.index, GoMap.get?_set, hget, List.filter_cons, hb]
        · simp [GoMap.index, GoMap.get?_set, hg]
    · have hb2 : matchesTypeAndProvider typ provider b = false := by simpa using hb
      simp only [filterGroup, hb2, Bool.false_eq_true, if_false]
      rw [ih]
      simp [List.filter_cons, hb2]

theorem index_filterGroups (typ provider : String) (s : VcapServices)
    (acc : VcapServices) (g : String) :
    GoMap.index (filterGroups typ provider s acc) g =
      GoMap.index acc g ++ matchingOf typ provider g s := by
  induction s generalizing acc with
  | nil => simp [filterGroups, matchingOf]
  | cons hd tl ih =>
    obtain ⟨key, service⟩ := hd
    rw [filterGroups, ih, index_filterGroup]
    by_cases hg : g = key
    · subst hg
      simp [matchingOf]
    · have hg2 : ¬ key = g := fun e => hg e.symm
      simp [matchingOf, hg, hg2]

theorem matchingOf_eq (typ provider g : String) (s : VcapServices) (hs : GoMap.WF s) :
    matchingOf typ provider g s =
      (GoMap.index s g).filter (matchesTypeAndProvider typ provider) := by
  induction s with
  | nil => simp [matchingOf, GoMap.index, GoMap.get?]
  | cons hd tl ih =>
    obtain ⟨key, service⟩ := hd
    simp only [GoMap.WF, GoMap.keys, List.map_cons, List.nodup_cons] at hs
    by_cases hg : g = key
    · subst hg
      have hnone : tl.filter (fun kv => kv.1 = g) = [] := by
        rw [List.filter_eq_nil_iff]
        intro kv hkv hk
        have hk2 : kv.1 = g := by simpa using hk
        exact hs.1 (by rw [← hk2]; exact List.mem_map_of_mem Prod.fst hkv)
      simp [matchingOf, hnone, GoMap.index, GoMap.get?]
    · have hg2 : ¬ key = g := fun e => hg e.symm
      have ih2 := ih hs.2
      simp only [matchingOf] at ih2
      simp [matchingOf, hg, hg2, GoMap.index, GoMap.get?, ih2]

/-! ## The file system calls -/

namespace os

theorem mkdirAt_fields (fs : FS) (p : List String) :
    (mkdirAt fs p).2.cwd = fs.cwd ∧ (mkdirAt fs p).2.denied = fs.denied ∧
      (mkdirAt fs p).2.calls = fs.calls := by
  unfold mkdirAt
  split
  · exact ⟨rfl, rfl, rfl⟩
  · split
    · exact ⟨rfl, rfl, rfl⟩
    · split <;> exact ⟨rfl, rfl, rfl⟩

theorem mkdirAt_node (fs : FS) (p q : List String) :
    (mkdirAt fs p).2.node q = fs.node q ∨
      (q = p ∧ fs.node q = none ∧ (mkdirAt fs p).2.node q = some .dir) := by
  unfold mkdirAt
  split
  · exact Or.inl rfl
  · split
    · exact Or.inl rfl
    · rename_i hnone
      split
      · by_cases hq : q = p
        · subst hq
          exact Or.inr ⟨rfl, hnone, by simp⟩
        · exact Or.inl (by simp [Function.update_noteq hq])
      · exact Or.inl rfl
      · exact Or.inl rfl

theorem mkdirAt_ok (fs : FS) (p : List String) (h : (mkdirAt fs p).1 = none) :
    (mkdirAt fs p).2.node p = some .dir := by
  by_cases hd : fs.denied p = true
  · simp [mkdirAt, hd] at h
  · cases hn : fs.node p with
    | some n => simp [mkdirAt, hd, hn] at h
    | none =>
      cases hpar : fs.node p.dropLast with
      | none => simp [mkdirAt, hd, hn, hpar] at h
      | some n =>
        cases n with
        | dir => simp [mkdirAt, hd, hn, hpar]
        | file c => simp [mkdirAt, hd, hn, hpar] at h

theorem mkdirAllAt_fields (fs : FS) (p : List String) :
    (mkdirAllAt fs p).2.cwd = fs.cwd ∧ (mkdirAllAt fs p).2.denied = fs.denied ∧
      (mkdirAllAt fs p).2.calls = fs.calls := by
  induction p with
  | nil =>
    unfold mkdirAllAt
    split <;> exact ⟨rfl, rfl, rfl⟩
  | cons e up ih =>
    unfold mkdirAllAt
    split
    · exact ⟨rfl, rfl, rfl⟩
    · exact ⟨rfl, rfl, rfl⟩
    · split
      · rename_i err fs1 heq
        rw [heq] at ih
        exact ih
      · rename_i fs1 heq
        rw [heq] at ih
        have h := mkdirAt_fields fs1 (e :: up).reverse
        exact ⟨h.1.trans ih.1, h.2.1.trans ih.2.1, h.2.2.trans ih.2.2⟩

theorem mkdirAllAt_node (fs : FS) (p q : List String) :
    (mkdirAllAt fs p).2.node q = fs.node q ∨
      (q <+: p.reverse ∧ fs.node q = none ∧ (mkdirAllAt fs p).2.node q = some .dir) := by
  induction p with
  | nil =>
    unfold mkdirAllAt
    split <;> exact Or.inl rfl
  | cons e up ih =>
    unfold mkdirAllAt
    split
    · exact Or.inl rfl
    · exact Or.inl rfl
    · have hpre : up.reverse <+: (e :: up).reverse := by
        rw [List.reverse_cons]
        exact List.prefix_append _ _
      split
      · rename_i err fs1 heq
        rw [heq] at ih
        rcases ih with h | ⟨h1, h2, h3⟩
        · exact Or.inl h
        · exact Or.inr ⟨h1.trans hpre, h2, h3⟩
      · rename_i fs1 heq
        rw [heq] at ih
        rcases mkdirAt_node fs1 (e :: up).reverse q with h | ⟨h1, h2, h3⟩
        · rcases ih with h4 | ⟨h4, h5, h6⟩
          · exact Or.inl (h.trans h4)
          · exact Or.inr ⟨h4.trans hpre, h5, h.trans h6⟩
        · rcases ih with h4 | ⟨h4, h5, h6⟩
          · exact Or.inr ⟨by rw [h1], h4 ▸ h2, h3⟩
          · exact Or.inr ⟨by rw [h1], h5, h3⟩

theorem mkdirAllAt_ok (fs : FS) (p : List String) (h : (mkdirAllAt fs p).1 = none) :
    (mkdirAllAt fs p).2.node p.reverse = some .dir := by
  cases p with
  | nil =>
    cases hd : fs.node [] with
    | none => simp only [mkdirAllAt, hd] at h; cases h
    | some n =>
      cases n with
      | dir => simp only [mkdirAllAt, hd, List.reverse_nil]
      | file c => simp only [mkdirAllAt, hd] at h; cases h
  | cons e up =>
    cases hd : fs.node (e :: up).reverse with
    | none =>
      cases heq : mkdirAllAt fs up with
      | mk r fs1 =>
        cases r with
        | some err => simp only [mkdirAllAt, hd, heq] at h; cases h
        | none =>
          simp only [mkdirAllAt, hd, heq] at h ⊢
          exact mkdirAt_ok fs1 _ h
    | some n =>
      cases n with
      | dir => simp only [mkdirAllAt, hd]
      | file c => simp only [mkdirAllAt, hd] at h; cases h

theorem mkdirAllAt_of_dir (fs : FS) (p : List String) (h : fs.node p.reverse = some .dir) :
    mkdirAllAt fs p = (none, fs) := by
  cases p with
  | nil =>
    simp only [List.reverse_nil] at h
    simp only [mkdirAllAt, h]
  | cons e up => simp only [mkdirAllAt, h]

theorem MkdirAll_fields (fs : FS) (path : String) :
    (MkdirAll fs path).2.cwd = fs.cwd ∧ (MkdirAll fs path).2.denied = fs.denied ∧
      (MkdirAll fs path).2.calls = fs.calls ++ [Call.MkdirAll path] := by
  unfold MkdirAll
  by_cases hp : path = ""
  · simp [hp]
  · simp only [hp, if_false]
    exact mkdirAllAt_fields _ _

theorem MkdirAll_node (fs : FS) (path : String) (q : List String) :
    (MkdirAll fs path).2.node q = fs.node q ∨
      (q <+: resolve fs.cwd path ∧ fs.node q = none ∧
        (MkdirAll fs path).2.node q = some .dir) := by
  unfold MkdirAll
  by_cases hp : path = ""
  · simp [hp]
  · simp only [hp, if_false]
    have h := mkdirAllAt_node { fs with calls := fs.calls ++ [Call.MkdirAll path] }
      (resolve fs.cwd path).reverse q
    rw [List.reverse_reverse] at h
    exact h

theorem MkdirAll_ok (fs : FS) (path : String) (h : (MkdirAll fs path).1 = none) :
    path ≠ "" ∧ (MkdirAll fs path).2.node (resolve fs.cwd path) = some .dir := by
  unfold MkdirAll at h ⊢
  by_cases hp : path = ""
  · simp [hp] at h
  · simp only [hp, if_false] at h ⊢
    refine ⟨hp, ?_⟩
    have h2 := mkdirAllAt_ok _ _ h
    rw [List.reverse_reverse] at h2
    exact h2

theorem MkdirAll_of_dir (fs : FS) (path : String) (hp : path ≠ "")
    (h : fs.node (resolve fs.cwd path) = some .dir) :
    MkdirAll fs path = (none, { fs with calls := fs.calls ++ [Call.MkdirAll path] }) := by
  unfold MkdirAll
  simp only [hp, if_false]
  apply mkdirAllAt_of_dir
  rw [List.reverse_reverse]
  exact h

theorem WriteFile_fields (fs : FS) (name data : String) :
    (WriteFile fs name data).2.cwd = fs.cwd ∧ (WriteFile fs name data).2.denied = fs.denied ∧
      (WriteFile fs name data).2.calls = fs.calls ++ [Call.WriteFile name data] := by
  unfold WriteFile
  simp only
  split
  · exact ⟨rfl, rfl, rfl⟩
  · split
    · exact ⟨rfl, rfl, rfl⟩
    · split
      · exact ⟨rfl, rfl, rfl⟩
      · exact ⟨rfl, rfl, rfl⟩
      · split <;> exact ⟨rfl, rfl, rfl⟩

theorem WriteFile_node (fs : FS) (name data : String) (q : List String) :
    (WriteFile fs name data).2.node q = fs.node q ∨
      (q = resolve fs.cwd name ∧ fs.node q ≠ some .dir ∧
        (WriteFile fs name data).2.node q = some (.file data)) := by
  by_cases hq : q = resolve fs.cwd name
  · subst hq
    by_cases hn : name = ""
    · simp [WriteFile, hn]
    · by_cases hd : fs.denied (resolve fs.cwd name) = true
      · simp [WriteFile, hn, hd]
      · cases hnode : fs.node (resolve fs.cwd name) with
        | some n =>
          cases n with
          | dir => simp [WriteFile, hn, hd, hnode]
          | file c => simp [WriteFile, hn, hd, hnode]
        | none =>
          cases hpar : fs.node (resolve fs.cwd name).dropLast with
          | none => simp [WriteFile, hn, hd, hnode, hpar]
          | some n =>
            cases n with
            | file c => simp [WriteFile, hn, hd, hnode, hpar]
            | dir => simp [WriteFile, hn, hd, hnode, hpar]
  · left
    unfold WriteFile
    simp only
    split
    · rfl
    · split
      · rfl
      · split
        · rfl
        · simp [Function.update_noteq hq]
        · split
          · simp [Function.update_noteq hq]
          · rfl
          · rfl

theorem WriteFile_ok (fs : FS) (name data : String) (h : (WriteFile fs name data).1 = none) :
    name ≠ "" ∧ fs.denied (resolve fs.cwd name) = false ∧
      (WriteFile fs name data).2.node (resolve fs.cwd name) = some (.file data) := by
  by_cases hn : name = ""
  · simp [WriteFile, hn] at h
  · by_cases hd : fs.denied (resolve fs.cwd name) = true
    · simp [WriteFile, hn, hd] at h
    · refine ⟨hn, by simpa using hd, ?_⟩
      cases hnode : fs.node (resolve fs.cwd name) with
      | some n =>
        cases n with
        | dir => simp [WriteFile, hn, hd, hnode] at h
        | file c => simp [WriteFile, hn, hd, hnode]
      | none =>
        cases hpar : fs.node (resolve fs.cwd name).dropLast with
        | none => simp [WriteFile, hn, hd, hnode, hpar] at h
        | some n =>
          cases n with
          | file c => simp [WriteFile, hn, hd, hnode, hpar] at h
          | dir => simp [WriteFile, hn, hd, hnode, hpar]

theorem WriteFile_of_isFile (fs : FS) (name data : String) (hn : name ≠ "")
    (hd : fs.denied (resolve fs.cwd name) = false) (h : isFile fs (resolve fs.cwd name)) :
    (WriteFile fs name data).1 = none := by
  obtain ⟨c, hc⟩ := h
  simp [WriteFile, hn, hd, hc]

theorem MkdirAll_isDir (fs : FS) (path : String) (q : List String) (h : isDir fs q) :
    isDir (MkdirAll fs path).2 q := by
  rcases MkdirAll_node fs path q with h1 | ⟨_, h2, _⟩
  · exact h1.trans h
  · rw [isDir, h2] at h
    cases h

theorem MkdirAll_isFile (fs : FS) (path : String) (q : List String) (h : isFile fs q) :
    isFile (MkdirAll fs path).2 q := by
  obtain ⟨c, hc⟩ := h
  rcases MkdirAll_node fs path q with h1 | ⟨_, h2, _⟩
  · exact ⟨c, h1.trans hc⟩
  · rw [h2] at hc
    cases hc

theorem WriteFile_isDir (fs : FS) (name data : String) (q : List String) (h : isDir fs q) :
    isDir (WriteFile fs name data).2 q := by
  rcases WriteFile_node fs name data q with h1 | ⟨_, h2, _⟩
  · exact h1.trans h
  · exact absurd h h2

theorem WriteFile_isFile (fs : FS) (name data : String) (q : List String) (h : isFile fs q) :
    isFile (WriteFile fs name data).2 q := by
  obtain ⟨c, hc⟩ := h
  rcases WriteFile_node fs name data q with h1 | ⟨_, _, h3⟩
  · exact ⟨c, h1.trans hc⟩
  · exact ⟨data, h3⟩

end os

theorem mem_allBindings_set (m : VcapServices) (k : String) (x b : VcapBinding) :
    b ∈ allBindings (GoMap.set m k (GoMap.index m k ++ [x])) ↔ b ∈ allBindings m ∨ b = x := by
  induction m with
  | nil => simp [GoMap.set, allBindings, GoMap.index, GoMap.get?]
  | cons hd tl ih =>
    obtain ⟨k0, v0⟩ := hd
    by_cases h : k = k0
    · subst h
      simp only [GoMap.set, if_true, allBindings, GoMap.index, GoMap.get?, Option.getD_some,
        List.flatMap_cons, List.mem_append, List.mem_singleton]
      tauto
    · have e : GoMap.index ((k0, v0) :: tl) k = GoMap.index tl k := by
        simp [GoMap.index, GoMap.get?, h]
      rw [e]
      simp only [allBindings] at ih
      simp only [GoMap.set, h, if_false, allBindings, List.flatMap_cons, List.mem_append, ih]
      tauto

theorem mem_allBindings_filterGroup (typ provider key : String) (service : List VcapBinding)
    (acc : VcapServices) (b : VcapBinding) :
    b ∈ allBindings (filterGroup typ provider key service acc) ↔
      b ∈ allBindings acc ∨ (b ∈ service ∧ matchesTypeAndProvider typ provider b = true) := by
  induction service generalizing acc with
  | nil => simp [filterGroup]
  | cons x rest ih =>
    by_cases hx : matchesTypeAndProvider typ provider x = true
    · have hset : ∀ m : VcapServices,
          (match GoMap.get? m key with
            | some bindingsList =>
              filterGroup typ provider key rest (GoMap.set m key (bindingsList ++ [x]))
            | none => filterGroup typ provider key rest (GoMap.set m key [x])) =
          filterGroup typ provider key rest (GoMap.set m key (GoMap.index m key ++ [x])) := by
        intro m
        cases hget : GoMap.get? m key <;> simp [GoMap.index, hget]
      simp only [filterGroup, hx, if_true]
      rw [hset, ih, mem_allBindings_set]
      constructor
      · rintro ((h | h) | h)
        · exact Or.inl h
        · exact Or.inr ⟨by rw [h]; exact List.mem_cons_self _ _, by rw [h]; exact hx⟩
        · exact Or.inr ⟨List.mem_cons_of_mem _ h.1, h.2⟩
      · rintro (h | ⟨h1, h2⟩)
        · exact Or.inl (Or.inl h)
        · rcases List.mem_cons.1 h1 with h3 | h3
          · exact Or.inl (Or.inr h3)
          · exact Or.inr ⟨h3, h2⟩
    · have hx2 : matchesTypeAndProvider typ provider x = false := by simpa using hx
      simp only [filterGroup, hx2, Bool.false_eq_true, if_false]
      rw [ih]
      constructor
      · rintro (h | ⟨h1, h2⟩)
        · exact Or.inl h
        · exact Or.inr ⟨List.mem_cons_of_mem _ h1, h2⟩
      · rintro (h | ⟨h1, h2⟩)
        · exact Or.inl h
        · rcases List.mem_cons.1 h1 with h3 | h3
          · rw [h3] at h2
            exact absurd h2 hx
          · exact Or.inr ⟨h3, h2⟩

theorem mem_allBindings_filterGroups (typ provider : String) (s : VcapServices)
    (acc : VcapServices) (b : VcapBinding) :
    b ∈ allBindings (filterGroups typ provider s acc) ↔
      b ∈ allBindings acc ∨
        (b ∈ allBindings s ∧ matchesTypeAndProvider typ provider b = true) := by
  induction s generalizing acc with
  | nil => simp [filterGroups, allBindings]
  | cons hd tl ih =>
    obtain ⟨key, service⟩ := hd
    rw [filterGroups, ih, mem_allBindings_filterGroup]
    simp only [allBindings, List.flatMap_cons, List.mem_append]
    tauto

/-- The bindings of the filtered set are the matching bindings of the set. -/
theorem mem_allBindings_filter (s : VcapServices) (typ provider : String) (b : VcapBinding) :
    b ∈ allBindings (s.FilterOnTypeAndProvider typ provider) ↔
      b ∈ allBindings s ∧ matchesTypeAndProvider typ provider b = true := by
  rw [VcapServices.FilterOnTypeAndProvider, mem_allBindings_filterGroups]
  simp [allBindings]

theorem mem_allBindings_perm (m m' : VcapServices) (h : m'.Perm m) (b : VcapBinding) :
    b ∈ allBindings m' ↔ b ∈ allBindings m := by
  simp only [allBindings, List.mem_flatMap]
  constructor
  · rintro ⟨g, hg, hb⟩
    exact ⟨g, h.mem_iff.1 hg, hb⟩
  · rintro ⟨g, hg, hb⟩
    exact ⟨g, h.mem_iff.2 hg, hb⟩

theorem filterGroup_of_no_match (typ provider key : String) (service : List VcapBinding)
    (acc : VcapServices)
    (h : ∀ b ∈ service, matchesTypeAndProvider typ provider b = false) :
    filterGroup typ provider key service acc = acc := by
  induction service generalizing acc with
  | nil => rfl
  | cons x rest ih =>
    have hx := h x (List.mem_cons_self _ _)
    simp only [filterGroup, hx, Bool.false_eq_true, if_false]
    exact ih acc (fun b hb => h b (List.mem_cons_of_mem _ hb))

theorem filterGroups_of_no_match (typ provider : String) (s : VcapServices)
    (acc : VcapServices)
    (h : ∀ b ∈ allBindings s, matchesTypeAndProvider typ provider b = false) :
    filterGroups typ provider s acc = acc := by
  induction s generalizing acc with
  | nil => rfl
  | cons hd tl ih =>
    obtain ⟨key, service⟩ := hd
    simp only [allBindings, List.flatMap_cons, List.mem_append] at h
    rw [filterGroups, filterGroup_of_no_match typ provider key service acc
      (fun b hb => h b (Or.inl hb))]
    exact ih acc (fun b hb => h b (Or.inr (by simpa [allBindings] using hb)))

theorem filterGroup_single (typ provider key : String) (service l : List VcapBinding) :
    filterGroup typ provider key service [(key, l)] =
      [(key, l ++ service.filter (matchesTypeAndProvider typ provider))] := by
  induction service generalizing l with
  | nil => simp [filterGroup]
  | cons x rest ih =>
    by_cases hx : matchesTypeAndProvider typ provider x = true
    · simp only [filterGroup, hx, if_true, GoMap.get?, GoMap.set]
      rw [ih]
      simp [List.filter_cons, hx]
    · have hx2 : matchesTypeAndProvider typ provider x = false := by simpa using hx
      simp only [filterGroup, hx2, Bool.false_eq_true, if_false]
      rw [ih]
      simp [List.filter_cons, hx2]

/-- The bindings of the filtered set of a single group, in order. -/
theorem allBindings_filter_single (typ provider key : String) (service : List VcapBinding) :
    allBindings (VcapServices.FilterOnTypeAndProvider [(key, service)] typ provider) =
      service.filter (matchesTypeAndProvider typ provider) ∧
    (VcapServices.FilterOnTypeAndProvider [(key, service)] typ provider).length ≤ 1 := by
  simp only [VcapServices.FilterOnTypeAndProvider, filterGroups]
  induction service with
  | nil => simp [filterGroup, allBindings]
  | cons x rest ih =>
    by_cases hx : matchesTypeAndProvider typ provider x = true
    · simp only [filterGroup, hx, if_true, GoMap.get?, GoMap.set]
      rw [filterGroup_single]
      simp [allBindings, List.filter_cons, hx]
    · have hx2 : matchesTypeAndProvider typ provider x = false := by simpa using hx
      simp only [filterGroup, hx2, Bool.false_eq_true, if_false]
      rw [List.filter_cons]
      simp only [hx2, Bool.false_eq_true, if_false]
      exact ih

/-! ## The materializer -/

theorem credentialsLoop_fields (dir : String) (creds : List (String × String))
    (acc : GoMap Entry) (fs : os.FS) :
    (credentialsLoop dir creds acc fs).2.cwd = fs.cwd ∧
      (credentialsLoop dir creds acc fs).2.denied = fs.denied := by
  induction creds generalizing acc fs with
  | nil => exact ⟨rfl, rfl⟩
  | cons kv rest ih =>
    obtain ⟨k, v⟩ := kv
    have hf := os.WriteFile_fields fs (filepath.Join dir k) v
    cases hw : os.WriteFile fs (filepath.Join dir k) v with
    | mk r fs1 =>
      rw [hw] at hf
      cases r with
      | some err =>
        simp only [credentialsLoop, hw]
        exact ⟨hf.1, hf.2.1⟩
      | none =>
        simp only [credentialsLoop, hw]
        have h := ih (GoMap.set acc k (NewEntry (filepath.Join dir k))) fs1
        exact ⟨h.1.trans hf.1, h.2.trans hf.2.1⟩

theorem credentialsLoop_node (dir : String) (creds : List (String × String))
    (acc : GoMap Entry) (fs : os.FS) (q : List String)
    (hq : ∀ kv ∈ creds, q ≠ credentialNode fs dir kv.1) :
    (credentialsLoop dir creds acc fs).2.node q = fs.node q := by
  induction creds generalizing acc fs with
  | nil => rfl
  | cons kv rest ih =>
    obtain ⟨k, v⟩ := kv
    have hf := os.WriteFile_fields fs (filepath.Join dir k) v
    have hn := os.WriteFile_node fs (filepath.Join dir k) v q
    have hq0 : q ≠ os.resolve fs.cwd (filepath.Join dir k) := hq (k, v) (List.mem_cons_self _ _)
    cases hw : os.WriteFile fs (filepath.Join dir k) v with
    | mk r fs1 =>
      rw [hw] at hf hn
      have hn1 : fs1.node q = fs.node q := by
        rcases hn with h | ⟨h, _⟩
        · exact h
        · exact absurd h hq0
      cases r with
      | some err =>
        simp only [credentialsLoop, hw]
        exact hn1
      | none =>
        simp only [credentialsLoop, hw]
        rw [ih _ fs1, hn1]
        intro kv hkv
        have h := hq kv (List.mem_cons_of_mem _ hkv)
        have hcwd : fs1.cwd = fs.cwd := hf.1
        simp only [credentialNode, hcwd] at h ⊢
        exact h

theorem credentialsLoop_isDir (dir : String) (creds : List (String × String))
    (acc : GoMap Entry) (fs : os.FS) (q : List String) (h : os.isDir fs q) :
    os.isDir (credentialsLoop dir creds acc fs).2 q := by
  induction creds generalizing acc fs with
  | nil => exact h
  | cons kv rest ih =>
    obtain ⟨k, v⟩ := kv
    have hd := os.WriteFile_isDir fs (filepath.Join dir k) v q h
    cases hw : os.WriteFile fs (filepath.Join dir k) v with
    | mk r fs1 =>
      rw [hw] at hd
      cases r with
      | some err =>
        simp only [credentialsLoop, hw]
        exact hd
      | none =>
        simp only [credentialsLoop, hw]
        exact ih _ fs1 hd

theorem credentialsLoop_isFile (dir : String) (creds : List (String × String))
    (acc : GoMap Entry) (fs : os.FS) (q : List String) (h : os.isFile fs q) :
    os.isFile (credentialsLoop dir creds acc fs).2 q := by
  induction creds generalizing acc fs with
  | nil => exact h
  | cons kv rest ih =>
    obtain ⟨k, v⟩ := kv
    have hd := os.WriteFile_isFile fs (filepath.Join dir k) v q h
    cases hw : os.WriteFile fs (filepath.Join dir k) v with
    | mk r fs1 =>
      rw [hw] at hd
      cases r with
      | some err =>
        simp only [credentialsLoop, hw]
        exact hd
      | none =>
        simp only [credentialsLoop, hw]
        exact ih _ fs1 hd

theorem credentialsLoop_ok_files (dir : String) (creds : List (String × String))
    (acc : GoMap Entry) (fs : os.FS) (entries : GoMap Entry)
    (h : (credentialsLoop dir creds acc fs).1 = .ok entries) :
    ∀ kv ∈ creds, filepath.Join dir kv.1 ≠ "" ∧
      fs.denied (credentialNode fs dir kv.1) = false ∧
      os.isFile (credentialsLoop dir creds acc fs).2 (credentialNode fs dir kv.1) := by
  induction creds generalizing acc fs with
  | nil => intro kv hkv; cases hkv
  | cons kv rest ih =>
    obtain ⟨k, v⟩ := kv
    have hf := os.WriteFile_fields fs (filepath.Join dir k) v
    have hok := os.WriteFile_ok fs (filepath.Join dir k) v
    cases hw : os.WriteFile fs (filepath.Join dir k) v with
    | mk r fs1 =>
      rw [hw] at hf hok
      cases r with
      | some err =>
        simp only [credentialsLoop, hw] at h
        cases h
      | none =>
        simp only [credentialsLoop, hw] at h ⊢
        obtain ⟨hne, hden, hnode⟩ := hok rfl
        intro kv hkv
        rcases List.mem_cons.1 hkv with h1 | h1
        · subst h1
          exact ⟨hne, hden, credentialsLoop_isFile _ _ _ _ _ ⟨v, hnode⟩⟩
        · have h2 := ih _ fs1 h kv h1
          have hcwd : fs1.cwd = fs.cwd := hf.1
          have hden1 : fs1.denied = fs.denied := hf.2.1
          simp only [credentialNode, hcwd, hden1] at h2 ⊢
          exact h2

/-- After a successful loop the file of a credential holds its value whenever
every credential written to that file has that value. -/
theorem credentialsLoop_ok_value (dir : String) (creds : List (String × String))
    (acc : GoMap Entry) (fs : os.FS) (entries : GoMap Entry)
    (h : (credentialsLoop dir creds acc fs).1 = .ok entries) :
    ∀ kv ∈ creds,
      (∀ kv1 ∈ creds, credentialNode fs dir kv1.1 = credentialNode fs dir kv.1 →
        kv1.2 = kv.2) →
      (credentialsLoop dir creds acc fs).2.node (credentialNode fs dir kv.1) =
        some (.file kv.2) := by
  induction creds generalizing acc fs with
  | nil => intro kv hkv; cases hkv
  | cons kv0 rest ih =>
    obtain ⟨k, v⟩ := kv0
    have hf := os.WriteFile_fields fs (filepath.Join dir k) v
    have hok := os.WriteFile_ok fs (filepath.Join dir k) v
    cases hw : os.WriteFile fs (filepath.Join dir k) v with
    | mk r fs1 =>
      rw [hw] at hf hok
      cases r with
      | some err =>
        simp only [credentialsLoop, hw] at h
        cases h
      | none =>
        simp only [credentialsLoop, hw] at h ⊢
        obtain ⟨_, _, hnode⟩ := hok rfl
        have hcwd : fs1.cwd = fs.cwd := hf.1
        have hcn : ∀ k1, credentialNode fs1 dir k1 = credentialNode fs dir k1 := by
          intro k1
          simp only [credentialNode, hcwd]
        intro kv hkv hsame
        by_cases hex : ∃ kv1 ∈ rest, credentialNode fs dir kv1.1 = credentialNode fs dir kv.1
        · obtain ⟨kv1, hkv1, hnode1⟩ := hex
          have hval : kv1.2 = kv.2 := hsame kv1 (List.mem_cons_of_mem _ hkv1) hnode1
          have h2 := ih _ fs1 h kv1 hkv1 (by
            intro kv2 hkv2 e
            rw [hcn, hcn] at e
            rw [hsame kv2 (List.mem_cons_of_mem _ hkv2) (e.trans hnode1), hval])
          rw [hcn, hnode1, hval] at h2
          exact h2
        · have hkv0 : kv = (k, v) := by
            rcases List.mem_cons.1 hkv with h1 | h1
            · exact h1
            · exact absurd ⟨kv, h1, rfl⟩ hex
          subst hkv0
          rw [credentialsLoop_node]
          · exact hnode
          · intro kv2 hkv2 e
            apply hex
            refine ⟨kv2, hkv2, ?_⟩
            rw [hcn] at e
            exact e.symm

theorem credentialsLoop_ok_entries (dir : String) (creds : List (String × String))
    (acc : GoMap Entry) (fs : os.FS) (entries : GoMap Entry)
    (h : (credentialsLoop dir creds acc fs).1 = .ok entries) (k : String) :
    GoMap.get? entries k =
      if k ∈ GoMap.keys creds then some (NewEntry (filepath.Join dir k))
      else GoMap.get? acc k := by
  induction creds generalizing acc fs with
  | nil =>
    simp only [credentialsLoop] at h
    cases h
    simp [GoMap.keys]
  | cons kv rest ih =>
    obtain ⟨k0, v⟩ := kv
    cases hw : os.WriteFile fs (filepath.Join dir k0) v with
    | mk r fs1 =>
      cases r with
      | some err =>
        simp only [credentialsLoop, hw] at h
        cases h
      | none =>
        simp only [credentialsLoop, hw] at h
        rw [ih _ fs1 h, GoMap.get?_set]
        by_cases hk : k = k0
        · subst hk
          simp [GoMap.keys]
        · simp only [GoMap.keys] at *
          simp only [List.map_cons, List.mem_cons, hk, false_or, if_false]

/-- Writing credentials over files that exist and may be written succeeds, and
a node keeps its content unless a credential with another value is written to
it. -/
theorem credentialsLoop_rewrite (dir : String) (creds : List (String × String))
    (acc : GoMap Entry) (fs : os.FS)
    (h : ∀ kv ∈ creds, filepath.Join dir kv.1 ≠ "" ∧
      fs.denied (credentialNode fs dir kv.1) = false ∧
      os.isFile fs (credentialNode fs dir kv.1)) :
    (∃ entries, (credentialsLoop dir creds acc fs).1 = .ok entries) ∧
      ∀ q, (∀ kv ∈ creds, credentialNode fs dir kv.1 = q → fs.node q = some (.file kv.2)) →
        (credentialsLoop dir creds acc fs).2.node q = fs.node q := by
  induction creds generalizing acc fs with
  | nil => exact ⟨⟨acc, rfl⟩, fun _ _ => rfl⟩
  | cons kv0 rest ih =>
    obtain ⟨k, v⟩ := kv0
    obtain ⟨hne, hden, hfile⟩ := h (k, v) (List.mem_cons_self _ _)
    have hsucc := os.WriteFile_of_isFile fs (filepath.Join dir k) v hne hden hfile
    have hf := os.WriteFile_fields fs (filepath.Join dir k) v
    have hok := os.WriteFile_ok fs (filepath.Join dir k) v
    have hn := os.WriteFile_node fs (filepath.Join dir k) v
    have hkeep := os.WriteFile_isFile fs (filepath.Join dir k) v
    cases hw : os.WriteFile fs (filepath.Join dir k) v with
    | mk r fs1 =>
      rw [hw] at hsucc hf hok hn hkeep
      simp only at hsucc
      subst hsucc
      have hcwd : fs1.cwd = fs.cwd := hf.1
      have hden1 : fs1.denied = fs.denied := hf.2.1
      have hcn : ∀ k1, credentialNode fs1 dir k1 = credentialNode fs dir k1 := by
        intro k1
        simp only [credentialNode, hcwd]
      simp only [credentialsLoop, hw]
      have hrest := ih (GoMap.set acc k (NewEntry (filepath.Join dir k))) fs1 (by
        intro kv hkv
        obtain ⟨h1, h2, h3⟩ := h kv (List.mem_cons_of_mem _ hkv)
        rw [hcn, hden1]
        exact ⟨h1, h2, hkeep _ h3⟩)
      refine ⟨hrest.1, ?_⟩
      intro q hq
      have hq1 : fs1.node q = fs.node q := by
        rcases hn q with h1 | ⟨h1, _, h3⟩
        · exact h1
        · have h4 := hq (k, v) (List.mem_cons_self _ _) h1.symm
          exact h3.trans h4.symm
      rw [hrest.2 q (by
        intro kv hkv e
        rw [hcn] at e
        rw [hq1]
        exact hq kv (List.mem_cons_of_mem _ hkv) e), hq1]

theorem credentialsLoop_append (dir : String) (l1 l2 : List (String × String))
    (acc : GoMap Entry) (fs : os.FS) :
    credentialsLoop dir (l1 ++ l2) acc fs =
      match credentialsLoop dir l1 acc fs with
      | (.error err, fs1) => (.error err, fs1)
      | (.ok acc1, fs1) => credentialsLoop dir l2 acc1 fs1 := by
  induction l1 generalizing acc fs with
  | nil => rfl
  | cons kv rest ih =>
    obtain ⟨k, v⟩ := kv
    cases hw : os.WriteFile fs (filepath.Join dir k) v with
    | mk r fs1 =>
      cases r with
      | some err => simp only [List.cons_append, credentialsLoop, hw]
      | none =>
        simp only [List.cons_append, credentialsLoop, hw]
        exact ih _ fs1

/-- The call that fails is the call whose error `ToServiceBinding` returns, and
nothing is done after it. -/
theorem ToServiceBinding_of_failingCall (workingDir : String) (b : VcapBinding)
    (fs1 : os.FS) (e : GoError) (fs2 : os.FS) (h : failingCall workingDir b fs1 e fs2) :
    b.ToServiceBinding workingDir fs1 = (.error e, fs2) := by
  unfold VcapBinding.ToServiceBinding VcapBinding.credentialsToEntries
  rcases h with ⟨h1, h2⟩ | ⟨h1, written, k, v, rest, hc, ⟨entries, hw⟩, hf, h2⟩
  · cases hm : os.MkdirAll fs1 (filepath.Join workingDir b.BindingGuid) with
    | mk r fsx =>
      rw [hm] at h1 h2
      simp only at h1 h2
      subst h1
      subst h2
      rfl
  · cases hm : os.MkdirAll fs1 (filepath.Join workingDir b.BindingGuid) with
    | mk r fsx =>
      rw [hm] at h1 hw hf h2
      simp only at h1 hw hf h2
      subst h1
      simp only
      rw [hc, credentialsLoop_append]
      cases hl : credentialsLoop (filepath.Join workingDir b.BindingGuid) written [] fsx with
      | mk r2 fsy =>
        rw [hl] at hw hf h2
        simp only at hw hf h2
        subst hw
        simp only
        cases hwf : os.WriteFile fsy
            (filepath.Join (filepath.Join workingDir b.BindingGuid) k) v with
        | mk r3 fsz =>
          rw [hwf] at hf h2
          simp only at hf h2
          subst hf
          subst h2
          simp only [credentialsLoop, hwf]

theorem ToServiceBinding_ok (b : VcapBinding) (workingDir : String) (fs fs2 : os.FS)
    (binding : Binding) (h : b.ToServiceBinding workingDir fs = (.ok binding, fs2)) :
    ∃ fs1 entries,
      os.MkdirAll fs (filepath.Join workingDir b.BindingGuid) = (none, fs1) ∧
      credentialsLoop (filepath.Join workingDir b.BindingGuid) b.Credentials [] fs1 =
        (.ok entries, fs2) ∧
      binding = { Path := filepath.Join workingDir b.BindingGuid, Entries := entries } := by
  unfold VcapBinding.ToServiceBinding VcapBinding.credentialsToEntries at h
  cases hm : os.MkdirAll fs (filepath.Join workingDir b.BindingGuid) with
  | mk r fs1 =>
    cases r with
    | some err => simp only [hm] at h; cases h
    | none =>
      simp only [hm] at h
      cases hc : credentialsLoop (filepath.Join workingDir b.BindingGuid) b.Credentials [] fs1 with
      | mk r2 fsx =>
        cases r2 with
        | error err => simp only [hc] at h; cases h
        | ok entries =>
          simp only [hc] at h
          cases h
          exact ⟨fs1, entries, rfl, hc, rfl⟩

theorem ToServiceBinding_fields (b : VcapBinding) (workingDir : String) (fs : os.FS) :
    (b.ToServiceBinding workingDir fs).2.cwd = fs.cwd ∧
      (b.ToServiceBinding workingDir fs).2.denied = fs.denied := by
  unfold VcapBinding.ToServiceBinding VcapBinding.credentialsToEntries
  have hf := os.MkdirAll_fields fs (filepath.Join workingDir b.BindingGuid)
  cases hm : os.MkdirAll fs (filepath.Join workingDir b.BindingGuid) with
  | mk r fs1 =>
    rw [hm] at hf
    cases r with
    | some err => exact ⟨hf.1, hf.2.1⟩
    | none =>
      simp only
      have hc := credentialsLoop_fields (filepath.Join workingDir b.BindingGuid)
        b.Credentials [] fs1
      cases hl : credentialsLoop (filepath.Join workingDir b.BindingGuid) b.Credentials [] fs1 with
      | mk r2 fsx =>
        rw [hl] at hc
        cases r2 with
        | error err => exact ⟨hc.1.trans hf.1, hc.2.trans hf.2.1⟩
        | ok entries => exact ⟨hc.1.trans hf.1, hc.2.trans hf.2.1⟩

/-- What `ToServiceBinding` can do to a node: leave it, turn a missing node on the
way to the binding directory into a directory, or write a credential file. -/
theorem ToServiceBinding_node (b : VcapBinding) (workingDir : String) (fs : os.FS)
    (q : List String) :
    (b.ToServiceBinding workingDir fs).2.node q = fs.node q ∨
      (q <+: bindingNode fs workingDir b ∧ fs.node q = none ∧
        (b.ToServiceBinding workingDir fs).2.node q = some .dir) ∨
      (∃ kv ∈ b.Credentials,
        q = credentialNode fs (filepath.Join workingDir b.BindingGuid) kv.1) := by
  by_cases hq : ∃ kv ∈ b.Credentials,
      q = credentialNode fs (filepath.Join workingDir b.BindingGuid) kv.1
  · exact Or.inr (Or.inr hq)
  · have hq2 : ∀ kv ∈ b.Credentials,
        q ≠ credentialNode fs (filepath.Join workingDir b.BindingGuid) kv.1 := by
      intro kv hkv e
      exact hq ⟨kv, hkv, e⟩
    unfold VcapBinding.ToServiceBinding VcapBinding.credentialsToEntries
    have hf := os.MkdirAll_fields fs (filepath.Join workingDir b.BindingGuid)
    have hn := os.MkdirAll_node fs (filepath.Join workingDir b.BindingGuid) q
    cases hm : os.MkdirAll fs (filepath.Join workingDir b.BindingGuid) with
    | mk r fs1 =>
      rw [hm] at hf hn
      have hcwd : fs1.cwd = fs.cwd := hf.1
      have hc := credentialsLoop_node (filepath.Join workingDir b.BindingGuid)
        b.Credentials [] fs1 q (by simpa only [credentialNode, hcwd] using hq2)
      have hmain : ∀ fsx : os.FS, fsx.node q = fs1.node q →
          fsx.node q = fs.node q ∨
            (q <+: bindingNode fs workingDir b ∧ fs.node q = none ∧ fsx.node q = some .dir) ∨
            (∃ kv ∈ b.Credentials,
              q = credentialNode fs (filepath.Join workingDir b.BindingGuid) kv.1) := by
        intro fsx hx
        rcases hn with h | ⟨h1, h2, h3⟩
        · exact Or.inl (hx.trans h)
        · exact Or.inr (Or.inl ⟨h1, h2, hx.trans h3⟩)
      cases r with
      | some err => exact hmain fs1 rfl
      | none =>
        simp only
        cases hl : credentialsLoop (filepath.Join workingDir b.BindingGuid)
            b.Credentials [] fs1 with
        | mk r2 fsx =>
          rw [hl] at hc
          cases r2 with
          | error err => exact hmain fsx hc
          | ok entries => exact hmain fsx hc

theorem ToServiceBinding_isDir (b : VcapBinding) (workingDir : String) (fs : os.FS)
    (q : List String) (h : os.isDir fs q) : os.isDir (b.ToServiceBinding workingDir fs).2 q := by
  unfold VcapBinding.ToServiceBinding VcapBinding.credentialsToEntries
  have hd := os.MkdirAll_isDir fs (filepath.Join workingDir b.BindingGuid) q h
  cases hm : os.MkdirAll fs (filepath.Join workingDir b.BindingGuid) with
  | mk r fs1 =>
    rw [hm] at hd
    cases r with
    | some err => exact hd
    | none =>
      simp only
      have hc := credentialsLoop_isDir (filepath.Join workingDir b.BindingGuid)
        b.Credentials [] fs1 q hd
      cases hl : credentialsLoop (filepath.Join workingDir b.BindingGuid) b.Credentials [] fs1 with
      | mk r2 fsx =>
        rw [hl] at hc
        cases r2 with
        | error err => exact hc
        | ok entries => exact hc

theorem ToServiceBinding_isFile (b : VcapBinding) (workingDir : String) (fs : os.FS)
    (q : List String) (h : os.isFile fs q) :
    os.isFile (b.ToServiceBinding workingDir fs).2 q := by
  unfold VcapBinding.ToServiceBinding VcapBinding.credentialsToEntries
  have hd := os.MkdirAll_isFile fs (filepath.Join workingDir b.BindingGuid) q h
  cases hm : os.MkdirAll fs (filepath.Join workingDir b.BindingGuid) with
  | mk r fs1 =>
    rw [hm] at hd
    cases r with
    | some err => exact hd
    | none =>
      simp only
      have hc := credentialsLoop_isFile (filepath.Join workingDir b.BindingGuid)
        b.Credentials [] fs1 q hd
      cases hl : credentialsLoop (filepath.Join workingDir b.BindingGuid) b.Credentials [] fs1 with
      | mk r2 fsx =>
        rw [hl] at hc
        cases r2 with
        | error err => exact hc
        | ok entries => exact hc

/-- After a successful `ToServiceBinding` the binding directory is a directory
and every credential has a file. -/
theorem ToServiceBinding_ok_nodes (b : VcapBinding) (workingDir : String) (fs fs2 : os.FS)
    (binding : Binding) (h : b.ToServiceBinding workingDir fs = (.ok binding, fs2)) :
    os.isDir fs2 (bindingNode fs workingDir b) ∧
      ∀ kv ∈ b.Credentials,
        os.isFile fs2 (credentialNode fs (filepath.Join workingDir b.BindingGuid) kv.1) := by
  obtain ⟨fs1, entries, hm, hc, _⟩ := ToServiceBinding_ok b workingDir fs fs2 binding h
  have hf := os.MkdirAll_fields fs (filepath.Join workingDir b.BindingGuid)
  have hok := os.MkdirAll_ok fs (filepath.Join workingDir b.BindingGuid)
  rw [hm] at hf hok
  have hcwd : fs1.cwd = fs.cwd := hf.1
  constructor
  · have h1 := credentialsLoop_isDir (filepath.Join workingDir b.BindingGuid) b.Credentials []
      fs1 (bindingNode fs workingDir b) (hok rfl).2
    rw [hc] at h1
    exact h1
  · intro kv hkv
    have h1 := credentialsLoop_ok_files (filepath.Join workingDir b.BindingGuid) b.Credentials
      [] fs1 entries (by rw [hc]) kv hkv
    rw [hc] at h1
    simp only [credentialNode, hcwd] at h1 ⊢
    exact h1.2.2

theorem bindingsLoop_append (workingDir : String) (l1 l2 : List VcapBinding)
    (acc : GoSlice Binding) (fs : os.FS) :
    bindingsLoop workingDir (l1 ++ l2) acc fs =
      match bindingsLoop workingDir l1 acc fs with
      | (.error err, fs1) => (.error err, fs1)
      | (.ok acc1, fs1) => bindingsLoop workingDir l2 acc1 fs1 := by
  induction l1 generalizing acc fs with
  | nil => rfl
  | cons b rest ih =>
    cases hb : b.ToServiceBinding workingDir fs with
    | mk r fs1 =>
      cases r with
      | error err => simp only [List.cons_append, bindingsLoop, hb]
      | ok binding =>
        simp only [List.cons_append, bindingsLoop, hb]
        exact ih _ fs1

/-- The nested loops of `ToServiceBindings` visit the bindings group after
group. -/
theorem servicesLoop_eq (workingDir : String) (s : VcapServices) (acc : GoSlice Binding)
    (fs : os.FS) :
    servicesLoop workingDir s acc fs = bindingsLoop workingDir (allBindings s) acc fs := by
  induction s generalizing acc fs with
  | nil => rfl
  | cons hd tl ih =>
    obtain ⟨key, service⟩ := hd
    have e : allBindings ((key, service) :: tl) = service ++ allBindings tl := by
      simp [allBindings]
    rw [e, bindingsLoop_append]
    cases hb : bindingsLoop workingDir service acc fs with
    | mk r fs1 =>
      cases r with
      | error err => simp only [servicesLoop, hb]
      | ok acc1 =>
        simp only [servicesLoop, hb]
        exact ih acc1 fs1

theorem bindingsLoop_fields (workingDir : String) (bs : List VcapBinding)
    (acc : GoSlice Binding) (fs : os.FS) :
    (bindingsLoop workingDir bs acc fs).2.cwd = fs.cwd ∧
      (bindingsLoop workingDir bs acc fs).2.denied = fs.denied := by
  induction bs generalizing acc fs with
  | nil => exact ⟨rfl, rfl⟩
  | cons b rest ih =>
    have hf := ToServiceBinding_fields b workingDir fs
    cases hb : b.ToServiceBinding workingDir fs with
    | mk r fs1 =>
      rw [hb] at hf
      cases r with
      | error err =>
        simp only [bindingsLoop, hb]
        exact hf
      | ok binding =>
        simp only [bindingsLoop, hb]
        have h := ih (GoSlice.append acc binding) fs1
        exact ⟨h.1.trans hf.1, h.2.trans hf.2⟩

theorem bindingsLoop_isDir (workingDir : String) (bs : List VcapBinding)
    (acc : GoSlice Binding) (fs : os.FS) (q : List String) (h : os.isDir fs q) :
    os.isDir (bindingsLoop workingDir bs acc fs).2 q := by
  induction bs generalizing acc fs with
  | nil => exact h
  | cons b rest ih =>
    have hd := ToServiceBinding_isDir b workingDir fs q h
    cases hb : b.ToServiceBinding workingDir fs with
    | mk r fs1 =>
      rw [hb] at hd
      cases r with
      | error err =>
        simp only [bindingsLoop, hb]
        exact hd
      | ok binding =>
        simp only [bindingsLoop, hb]
        exact ih _ fs1 hd

theorem bindingsLoop_isFile (workingDir : String) (bs : List VcapBinding)
    (acc : GoSlice Binding) (fs : os.FS) (q : List String) (h : os.isFile fs q) :
    os.isFile (bindingsLoop workingDir bs acc fs).2 q := by
  induction bs generalizing acc fs with
  | nil => exact h
  | cons b rest ih =>
    have hd := ToServiceBinding_isFile b workingDir fs q h
    cases hb : b.ToServiceBinding workingDir fs with
    | mk r fs1 =>
      rw [hb] at hd
      cases r with
      | error err =>
        simp only [bindingsLoop, hb]
        exact hd
      | ok binding =>
        simp only [bindingsLoop, hb]
        exact ih _ fs1 hd

/-- A successful loop returns one handle for every binding, in order, after the
handles it started with. -/
theorem bindingsLoop_paths (workingDir : String) (bs : List VcapBinding)
    (acc result : GoSlice Binding) (fs : os.FS)
    (h : (bindingsLoop workingDir bs acc fs).1 = .ok result) :
    (GoSlice.toList result).map Binding.Path =
      (GoSlice.toList acc).map Binding.Path ++
        bs.map (fun b => filepath.Join workingDir b.BindingGuid) := by
  induction bs generalizing acc fs with
  | nil =>
    simp only [bindingsLoop] at h
    cases h
    simp
  | cons b rest ih =>
    cases hb : b.ToServiceBinding workingDir fs with
    | mk r fs1 =>
      cases r with
      | error err =>
        simp only [bindingsLoop, hb] at h
        cases h
      | ok binding =>
        simp only [bindingsLoop, hb] at h
        obtain ⟨_, entries, _, _, hbind⟩ := ToServiceBinding_ok b workingDir fs fs1 binding hb
        rw [ih _ fs1 h, hbind]
        simp [GoSlice.append, GoSlice.toList]

/-- After a successful loop every binding has its directory and its credential
files. -/
theorem bindingsLoop_ok_nodes (workingDir : String) (bs : List VcapBinding)
    (acc result : GoSlice Binding) (fs : os.FS)
    (h : (bindingsLoop workingDir bs acc fs).1 = .ok result) :
    ∀ b ∈ bs, os.isDir (bindingsLoop workingDir bs acc fs).2 (bindingNode fs workingDir b) ∧
      ∀ kv ∈ b.Credentials,
        os.isFile (bindingsLoop workingDir bs acc fs).2
          (credentialNode fs (filepath.Join workingDir b.BindingGuid) kv.1) := by
  induction bs generalizing acc fs with
  | nil => intro b hb; cases hb
  | cons b0 rest ih =>
    have hf := ToServiceBinding_fields b0 workingDir fs
    cases hb : b0.ToServiceBinding workingDir fs with
    | mk r fs1 =>
      rw [hb] at hf
      have hcwd : fs1.cwd = fs.cwd := hf.1
      cases r with
      | error err =>
        simp only [bindingsLoop, hb] at h
        cases h
      | ok binding =>
        simp only [bindingsLoop, hb] at h ⊢
        have hn := ToServiceBinding_ok_nodes b0 workingDir fs fs1 binding hb
        intro b hmem
        rcases List.mem_cons.1 hmem with h1 | h1
        · subst h1
          exact ⟨bindingsLoop_isDir _ _ _ _ _ hn.1,
            fun kv hkv => bindingsLoop_isFile _ _ _ _ _ (hn.2 kv hkv)⟩
        · have h2 := ih _ fs1 h b h1
          simp only [bindingNode, credentialNode, hcwd] at h2 ⊢
          exact h2

/-- What the loop can do to a node: leave it, turn a missing node on the way to
a binding directory into a directory, or write a credential file of one of the
bindings. -/
theorem bindingsLoop_node (workingDir : String) (bs : List VcapBinding)
    (acc : GoSlice Binding) (fs : os.FS) (q : List String) :
    (bindingsLoop workingDir bs acc fs).2.node q = fs.node q ∨
      (∃ b ∈ bs, q <+: bindingNode fs workingDir b ∧ fs.node q = none ∧
        (bindingsLoop workingDir bs acc fs).2.node q = some .dir) ∨
      (∃ b ∈ bs, ∃ kv ∈ b.Credentials,
        q = credentialNode fs (filepath.Join workingDir b.BindingGuid) kv.1) := by
  induction bs generalizing acc fs with
  | nil => exact Or.inl rfl
  | cons b0 rest ih =>
    have hf := ToServiceBinding_fields b0 workingDir fs
    have hn := ToServiceBinding_node b0 workingDir fs q
    have hdir := ToServiceBinding_isDir b0 workingDir fs q
    cases hb : b0.ToServiceBinding workingDir fs with
    | mk r fs1 =>
      rw [hb] at hf hn hdir
      have hcwd : fs1.cwd = fs.cwd := hf.1
      have hfirst : ∀ fsx : os.FS, (os.isDir fs1 q → os.isDir fsx q) →
          (fsx.node q = fs1.node q ∨
            (∃ b ∈ rest, q <+: bindingNode fs workingDir b ∧ fs1.node q = none ∧
              fsx.node q = some .dir) ∨
            (∃ b ∈ rest, ∃ kv ∈ b.Credentials,
              q = credentialNode fs (filepath.Join workingDir b.BindingGuid) kv.1)) →
          fsx.node q = fs.node q ∨
            (∃ b ∈ b0 :: rest, q <+: bindingNode fs workingDir b ∧ fs.node q = none ∧
              fsx.node q = some .dir) ∨
            (∃ b ∈ b0 :: rest, ∃ kv ∈ b.Credentials,
              q = credentialNode fs (filepath.Join workingDir b.BindingGuid) kv.1) := by
        intro fsx hkeep hx
        rcases hn with h1 | ⟨h1, h2, h3⟩ | ⟨kv, hkv, h1⟩
        · rcases hx with h4 | ⟨b, hb1, h4, h5, h6⟩ | ⟨b, hb1, kv, hkv, h4⟩
          · exact Or.inl (h4.trans h1)
          · exact Or.inr (Or.inl ⟨b, List.mem_cons_of_mem _ hb1, h4, h1 ▸ h5, h6⟩)
          · exact Or.inr (Or.inr ⟨b, List.mem_cons_of_mem _ hb1, kv, hkv, h4⟩)
        · exact Or.inr (Or.inl ⟨b0, List.mem_cons_self _ _, h1, h2, hkeep h3⟩)
        · exact Or.inr (Or.inr ⟨b0, List.mem_cons_self _ _, kv, hkv, h1⟩)
      cases r with
      | error err =>
        simp only [bindingsLoop, hb]
        exact hfirst fs1 (fun h => h) (Or.inl rfl)
      | ok binding =>
        simp only [bindingsLoop, hb]
        have h2 := ih (GoSlice.append acc binding) fs1
        simp only [bindingNode, credentialNode, hcwd] at h2
        exact hfirst _ (bindingsLoop_isDir _ _ _ _ _) h2

/-! ## The claims -/

/-- C1. For every well-formed set `s`, type, provider and group key `g`, the
list the filtered set holds under `g` is the sublist of `s[g]` of the bindings
whose label equals the type and whose provider equals the requested one or the
requested one is empty, in their original order; with an empty provider the
provider of a binding plays no role. -/
theorem FilterOnTypeAndProvider_index (s : VcapServices) (hs : GoMap.WF s)
    (typ provider g : String) :
    GoMap.index (s.FilterOnTypeAndProvider typ provider) g =
        (GoMap.index s g).filter
          (fun b => decide (b.Label = typ ∧ (provider = "" ∨ provider = b.Provider))) ∧
      (provider = "" →
        GoMap.index (s.FilterOnTypeAndProvider typ provider) g =
          (GoMap.index s g).filter (fun b => decide (b.Label = typ))) := by
  have h : GoMap.index (s.FilterOnTypeAndProvider typ provider) g =
      (GoMap.index s g).filter (matchesTypeAndProvider typ provider) := by
    rw [VcapServices.FilterOnTypeAndProvider, index_filterGroups, matchingOf_eq _ _ _ _ hs]
    simp [GoMap.index, GoMap.get?]
  refine ⟨?_, ?_⟩
  · rw [h]
    rfl
  · intro hp
    rw [h]
    apply List.filter_congr
    intro b _
    simp [matchesTypeAndProvider, hp]

/-- C4. When `VCAP_SERVICES` is absent, `Resolve` returns the empty, non-nil list
and no error for every type, provider and working directory; the result is the
same for every parser (the parser is not consulted) and the file system,
recorded calls included, is the one it started with. -/
theorem Resolve_env_absent (environ : String → Option String)
    (henv : environ "VCAP_SERVICES" = none)
    (unmarshal : String → Except GoError VcapServices) (order : VcapServices → VcapServices)
    (typ provider workingDir : String) (fs : os.FS) :
    Resolve environ unmarshal order typ provider workingDir fs = (.ok (some []), fs) := by
  simp only [Resolve, henv]

/-- C5. When `VCAP_SERVICES` is present and `ParseVcapServices` fails on its
content with the error `err`, `Resolve` returns no handle list and exactly
`err`, and the file system, recorded calls included, is the one it started
with: nothing is created or written. -/
theorem Resolve_parse_error (environ : String → Option String)
    (unmarshal : String → Except GoError VcapServices) (order : VcapServices → VcapServices)
    (typ provider workingDir : String) (fs : os.FS) (envVar : String) (err : GoError)
    (henv : environ "VCAP_SERVICES" = some envVar)
    (hparse : ParseVcapServices unmarshal envVar = .error err) :
    Resolve environ unmarshal order typ provider workingDir fs = (.error err, fs) := by
  simp only [Resolve, henv, hparse]

/-- C7. For a parsed set with the single group `g`, whenever `Resolve`
succeeds, the returned list has one handle for every binding of the group that
matches the filter, duplicates included, and the handle paths are
`Join(workingDir, BindingGuid)` of the matching bindings in their order in the
group. -/
theorem Resolve_single_group_paths (environ : String → Option String)
    (unmarshal : String → Except GoError VcapServices) (order : VcapServices → VcapServices)
    (horder : ∀ m, (order m).Perm m)
    (typ provider workingDir : String) (fs : os.FS) (envVar g : String)
    (bs : List VcapBinding) (result : GoSlice Binding)
    (henv : environ "VCAP_SERVICES" = some envVar)
    (hparse : ParseVcapServices unmarshal envVar = .ok [(g, bs)])
    (hres : (Resolve environ unmarshal order typ provider workingDir fs).1 = .ok result) :
    (GoSlice.toList result).length =
        (bs.filter
          (fun b => decide (b.Label = typ ∧ (provider = "" ∨ provider = b.Provider)))).length ∧
      (GoSlice.toList result).map Binding.Path =
        (bs.filter
          (fun b => decide (b.Label = typ ∧ (provider = "" ∨ provider = b.Provider)))).map
          (fun b => filepath.Join workingDir b.BindingGuid) := by
  have hsingle := allBindings_filter_single typ provider g bs
  have hord : order (VcapServices.FilterOnTypeAndProvider [(g, bs)] typ provider) =
      VcapServices.FilterOnTypeAndProvider [(g, bs)] typ provider := by
    have hp := horder (VcapServices.FilterOnTypeAndProvider [(g, bs)] typ provider)
    cases hm : VcapServices.FilterOnTypeAndProvider [(g, bs)] typ provider with
    | nil =>
      rw [hm] at hp
      exact List.Perm.eq_nil hp
    | cons x rest =>
      have hlen := hsingle.2
      rw [hm] at hlen hp
      cases rest with
      | nil => exact List.perm_singleton.1 hp
      | cons y ys => simp at hlen
  have hpaths : (GoSlice.toList result).map Binding.Path =
      (bs.filter (matchesTypeAndProvider typ provider)).map
        (fun b => filepath.Join workingDir b.BindingGuid) := by
    simp only [Resolve, henv, hparse, hord, VcapServices.ToServiceBindings, servicesLoop_eq,
      hsingle.1] at hres
    cases hb : bindingsLoop workingDir (bs.filter (matchesTypeAndProvider typ provider))
        none fs with
    | mk r fs1 =>
      rw [hb] at hres
      cases r with
      | error err => cases hres
      | ok r0 =>
        simp only at hres
        cases hres
        have h := bindingsLoop_paths workingDir _ none result fs (by rw [hb])
        simpa [GoSlice.toList] using h
  refine ⟨?_, hpaths⟩
  have h := congrArg List.length hpaths
  rw [List.length_map, List.length_map] at h
  exact h

/-- C8. For a parsed set, a type and a non-empty provider such that no binding
has both that label and that provider, `Resolve` returns an empty list of
handles and no error, whatever bindings with that label exist under other
providers. -/
theorem Resolve_provider_without_match (environ : String → Option String)
    (unmarshal : String → Except GoError VcapServices) (order : VcapServices → VcapServices)
    (horder : ∀ m, (order m).Perm m)
    (typ provider workingDir : String) (fs : os.FS) (envVar : String) (s : VcapServices)
    (henv : environ "VCAP_SERVICES" = some envVar)
    (hparse : ParseVcapServices unmarshal envVar = .ok s)
    (hprovider : provider ≠ "")
    (hnone : ∀ b ∈ allBindings s, ¬ (b.Label = typ ∧ b.Provider = provider)) :
    ∃ result, (Resolve environ unmarshal order typ provider workingDir fs).1 = .ok result ∧
      GoSlice.toList result = [] := by
  have hfilter : s.FilterOnTypeAndProvider typ provider = [] := by
    apply filterGroups_of_no_match
    intro b hb
    have h := hnone b hb
    simp only [matchesTypeAndProvider, decide_eq_false_iff_not]
    rintro ⟨h1, h2 | h2⟩
    · exact hprovider h2
    · exact h ⟨h1, h2.symm⟩
  have hord : order [] = [] := List.Perm.eq_nil (horder [])
  refine ⟨none, ?_, rfl⟩
  simp only [Resolve, henv, hparse, hfilter, hord, VcapServices.ToServiceBindings, servicesLoop]

/-- What a successful `ToServiceBinding` leaves behind: the entries are those of
the credentials, every credential has a file that may be written again, and the
file of a credential holds its value whenever every credential joined to that
file has that value. -/
theorem ToServiceBinding_ok_state (b : VcapBinding) (workingDir : String) (fs : os.FS)
    (binding : Binding) (h : (b.ToServiceBinding workingDir fs).1 = .ok binding) :
    binding.Path = filepath.Join workingDir b.BindingGuid ∧
      filepath.Join workingDir b.BindingGuid ≠ "" ∧
      os.isDir (b.ToServiceBinding workingDir fs).2 (bindingNode fs workingDir b) ∧
      (∀ k, GoMap.get? binding.Entries k =
        if k ∈ GoMap.keys b.Credentials then
          some (NewEntry (filepath.Join (filepath.Join workingDir b.BindingGuid) k))
        else none) ∧
      ∀ kv ∈ b.Credentials,
        filepath.Join (filepath.Join workingDir b.BindingGuid) kv.1 ≠ "" ∧
        fs.denied (credentialNode fs (filepath.Join workingDir b.BindingGuid) kv.1) = false ∧
        os.isFile (b.ToServiceBinding workingDir fs).2
          (credentialNode fs (filepath.Join workingDir b.BindingGuid) kv.1) ∧
        ((∀ kv1 ∈ b.Credentials,
            credentialNode fs (filepath.Join workingDir b.BindingGuid) kv1.1 =
              credentialNode fs (filepath.Join workingDir b.BindingGuid) kv.1 →
            kv1.2 = kv.2) →
          (b.ToServiceBinding workingDir fs).2.node
            (credentialNode fs (filepath.Join workingDir b.BindingGuid) kv.1) =
              some (.file kv.2)) := by
  cases hr : b.ToServiceBinding workingDir fs with
  | mk r fs2 =>
    rw [hr] at h
    simp only at h
    subst h
    obtain ⟨fs1, entries, hm, hc, hbind⟩ := ToServiceBinding_ok b workingDir fs fs2 binding hr
    have hf := os.MkdirAll_fields fs (filepath.Join workingDir b.BindingGuid)
    have hok := os.MkdirAll_ok fs (filepath.Join workingDir b.BindingGuid)
    rw [hm] at hf hok
    have hcwd : fs1.cwd = fs.cwd := hf.1
    have hden : fs1.denied = fs.denied := hf.2.1
    have hdir := credentialsLoop_isDir (filepath.Join workingDir b.BindingGuid) b.Credentials []
      fs1 (bindingNode fs workingDir b) (hok rfl).2
    have hent := credentialsLoop_ok_entries (filepath.Join workingDir b.BindingGuid)
      b.Credentials [] fs1 entries (by rw [hc])
    have hfile := credentialsLoop_ok_files (filepath.Join workingDir b.BindingGuid)
      b.Credentials [] fs1 entries (by rw [hc])
    have hval := credentialsLoop_ok_value (filepath.Join workingDir b.BindingGuid)
      b.Credentials [] fs1 entries (by rw [hc])
    rw [hc] at hdir hfile hval
    simp only [credentialNode, hcwd, hden] at hfile hval
    refine ⟨by rw [hbind], (hok rfl).1, hdir, ?_, ?_⟩
    · intro k
      rw [hbind]
      simp only
      rw [hent k]
      simp [GoMap.get?]
    · intro kv hkv
      exact ⟨(hfile kv hkv).1, (hfile kv hkv).2.1, (hfile kv hkv).2.2, hval kv hkv⟩

/-- C2, amended. Whenever `ToServiceBinding` succeeds, the returned handle has
the path `Join(workingDir, BindingGuid)`, its entries have exactly the keys of
the credentials, the entry of a key `k` wraps `Join(Join(workingDir,
BindingGuid), k)`, and for every key `k` such that no key of the credentials
with another value is joined to the same file (in particular when no other key
is joined to that file), reading the entry of `k` in the resulting file system
yields the value of `k`, unchanged. -/
theorem ToServiceBinding_entries (b : VcapBinding) (workingDir : String) (fs : os.FS)
    (binding : Binding) (h : (b.ToServiceBinding workingDir fs).1 = .ok binding) :
    binding.Path = filepath.Join workingDir b.BindingGuid ∧
      (∀ k, k ∈ GoMap.keys binding.Entries ↔ k ∈ GoMap.keys b.Credentials) ∧
      (∀ k, k ∈ GoMap.keys b.Credentials →
        GoMap.get? binding.Entries k =
          some (NewEntry (filepath.Join (filepath.Join workingDir b.BindingGuid) k))) ∧
      ∀ k v, GoMap.get? b.Credentials k = some v →
        (∀ kv ∈ b.Credentials,
          os.resolve fs.cwd
              (filepath.Join (filepath.Join workingDir b.BindingGuid) kv.1) =
            os.resolve fs.cwd (filepath.Join (filepath.Join workingDir b.BindingGuid) k) →
          kv.2 = v) →
        ∃ entry, GoMap.get? binding.Entries k = some entry ∧
          entry.ReadString (b.ToServiceBinding workingDir fs).2 = .ok v := by
  obtain ⟨hpath, _, _, hent, hcred⟩ := ToServiceBinding_ok_state b workingDir fs binding h
  have hcwd := (ToServiceBinding_fields b workingDir fs).1
  refine ⟨hpath, ?_, ?_, ?_⟩
  · intro k
    rw [GoMap.mem_keys_iff]
    constructor
    · rintro ⟨v, hv⟩
      rw [hent k] at hv
      by_contra hk
      rw [if_neg hk] at hv
      cases hv
    · intro hk
      exact ⟨_, by rw [hent k, if_pos hk]⟩
  · intro k hk
    rw [hent k, if_pos hk]
  · intro k v hkv hsame
    have hmem := GoMap.mem_of_get? _ _ _ hkv
    have hk : k ∈ GoMap.keys b.Credentials := GoMap.mem_keys_of_get? _ _ _ hkv
    obtain ⟨hne, _, _, hnode⟩ := hcred (k, v) hmem
    have hnode1 := hnode hsame
    have hne1 : filepath.Join (filepath.Join workingDir b.BindingGuid) k ≠ "" := hne
    refine ⟨_, by rw [hent k, if_pos hk], ?_⟩
    simp only [credentialNode] at hnode1
    simp only [Entry.ReadString, NewEntry, os.ReadFile, hne1, if_false, hcwd, hnode1]

/-- C6, amended. After a successful `ToServiceBinding`, running it again on the
resulting file system, with the credentials visited in any order, succeeds too
and returns the same path and the same entries.  It leaves as the first run
left it every node except a credential file that two keys with different values
are joined to; so when no two keys with different values share a file, every
node is as the first run left it.  Every credential file whose keys all carry
one value (in particular a file of a single key) holds that value. -/
theorem ToServiceBinding_twice (b : VcapBinding) (workingDir : String) (fs : os.FS)
    (binding : Binding) (h : (b.ToServiceBinding workingDir fs).1 = .ok binding)
    (again : GoMap String) (hagain : again.Perm b.Credentials) :
    ∃ binding2,
      (VcapBinding.ToServiceBinding { b with Credentials := again } workingDir
        (b.ToServiceBinding workingDir fs).2).1 = .ok binding2 ∧
      binding2.Path = binding.Path ∧
      (∀ k, GoMap.get? binding2.Entries k = GoMap.get? binding.Entries k) ∧
      (∀ q, (∀ kv ∈ b.Credentials, ∀ kv1 ∈ b.Credentials,
          credentialNode fs (filepath.Join workingDir b.BindingGuid) kv.1 = q →
          credentialNode fs (filepath.Join workingDir b.BindingGuid) kv1.1 = q →
          kv1.2 = kv.2) →
        (VcapBinding.ToServiceBinding { b with Credentials := again } workingDir
          (b.ToServiceBinding workingDir fs).2).2.node q =
            (b.ToServiceBinding workingDir fs).2.node q) ∧
      ((∀ kv ∈ b.Credentials, ∀ kv1 ∈ b.Credentials,
          credentialNode fs (filepath.Join workingDir b.BindingGuid) kv1.1 =
            credentialNode fs (filepath.Join workingDir b.BindingGuid) kv.1 →
          kv1.2 = kv.2) →
        (VcapBinding.ToServiceBinding { b with Credentials := again } workingDir
          (b.ToServiceBinding workingDir fs).2).2.node =
            (b.ToServiceBinding workingDir fs).2.node) ∧
      ∀ k v, GoMap.get? b.Credentials k = some v →
        (∀ kv ∈ b.Credentials,
          credentialNode fs (filepath.Join workingDir b.BindingGuid) kv.1 =
            credentialNode fs (filepath.Join workingDir b.BindingGuid) k →
          kv.2 = v) →
        os.ReadFile (VcapBinding.ToServiceBinding { b with Credentials := again } workingDir
            (b.ToServiceBinding workingDir fs).2).2
          (filepath.Join (filepath.Join workingDir b.BindingGuid) k) = .ok v := by
  obtain ⟨hpath, hdirne, hdir, hent, hcred⟩ :=
    ToServiceBinding_ok_state b workingDir fs binding h
  obtain ⟨hcwd, hden⟩ := ToServiceBinding_fields b workingDir fs
  generalize hfs1 : (b.ToServiceBinding workingDir fs).2 = fs1 at hdir hcred hcwd hden ⊢
  have hmk := os.MkdirAll_of_dir fs1 (filepath.Join workingDir b.BindingGuid) hdirne
    (by simpa only [bindingNode, os.isDir, hcwd] using hdir)
  have hloop := credentialsLoop_rewrite (filepath.Join workingDir b.BindingGuid) again []
    { fs1 with calls := fs1.calls ++ [os.Call.MkdirAll (filepath.Join workingDir b.BindingGuid)] }
    (by
      intro kv hkv
      obtain ⟨h1, h2, h3, _⟩ := hcred kv (hagain.mem_iff.1 hkv)
      simp only [credentialNode, hcwd, hden] at h2 h3 ⊢
      exact ⟨h1, h2, h3⟩)
  obtain ⟨⟨entries2, hentries2⟩, hnode2⟩ := hloop
  have hrun : VcapBinding.ToServiceBinding { b with Credentials := again } workingDir fs1 =
      (.ok { Path := filepath.Join workingDir b.BindingGuid, Entries := entries2 },
        (credentialsLoop (filepath.Join workingDir b.BindingGuid) again []
          { fs1 with calls := fs1.calls ++
            [os.Call.MkdirAll (filepath.Join workingDir b.BindingGuid)] }).2) := by
    simp only [VcapBinding.ToServiceBinding, VcapBinding.credentialsToEntries, hmk]
    cases hl : credentialsLoop (filepath.Join workingDir b.BindingGuid) again []
        { fs1 with calls := fs1.calls ++
          [os.Call.MkdirAll (filepath.Join workingDir b.BindingGuid)] } with
    | mk r fsx =>
      rw [hl] at hentries2
      simp only at hentries2
      subst hentries2
      rfl
  have hent2 := credentialsLoop_ok_entries (filepath.Join workingDir b.BindingGuid) again []
    _ entries2 hentries2
  have hcwd2 := (credentialsLoop_fields (filepath.Join workingDir b.BindingGuid) again []
    { fs1 with calls := fs1.calls ++
      [os.Call.MkdirAll (filepath.Join workingDir b.BindingGuid)] }).1
  have hcwd3 : (credentialsLoop (filepath.Join workingDir b.BindingGuid) again []
      { fs1 with calls := fs1.calls ++
        [os.Call.MkdirAll (filepath.Join workingDir b.BindingGuid)] }).2.cwd = fs.cwd :=
    hcwd2.trans hcwd
  have hkeep : ∀ q, (∀ kv ∈ b.Credentials, ∀ kv1 ∈ b.Credentials,
        credentialNode fs (filepath.Join workingDir b.BindingGuid) kv.1 = q →
        credentialNode fs (filepath.Join workingDir b.BindingGuid) kv1.1 = q →
        kv1.2 = kv.2) →
      (credentialsLoop (filepath.Join workingDir b.BindingGuid) again []
        { fs1 with calls := fs1.calls ++
          [os.Call.MkdirAll (filepath.Join workingDir b.BindingGuid)] }).2.node q =
        fs1.node q := by
    intro q hq
    apply hnode2 q
    intro kv hkv e
    have hkv1 := hagain.mem_iff.1 hkv
    have e1 : credentialNode fs (filepath.Join workingDir b.BindingGuid) kv.1 = q := by
      simp only [credentialNode, hcwd] at e ⊢
      exact e
    have h4 := (hcred kv hkv1).2.2.2 (fun kv1 hkv2 e2 => hq kv hkv1 kv1 hkv2 e1 (e2.trans e1))
    rw [e1] at h4
    exact h4
  rw [hrun]
  refine ⟨_, rfl, by rw [hpath], ?_, hkeep, ?_, ?_⟩
  · intro k
    rw [hent2 k, hent k]
    have hk : k ∈ GoMap.keys again ↔ k ∈ GoMap.keys b.Credentials := by
      simp only [GoMap.keys]
      exact (hagain.map Prod.fst).mem_iff
    by_cases hk1 : k ∈ GoMap.keys b.Credentials
    · rw [if_pos hk1, if_pos (hk.2 hk1)]
    · rw [if_neg hk1, if_neg (fun e => hk1 (hk.1 e))]
      rfl
  · intro hall
    funext q
    apply hkeep q
    intro kv hkv kv1 hkv1 e e1
    exact hall kv hkv kv1 hkv1 (e1.trans e.symm)
  · intro k v hkv hsame
    have hmem := GoMap.mem_of_get? _ _ _ hkv
    obtain ⟨hne, _, _, hnode⟩ := hcred (k, v) hmem
    have hnode1 : fs1.node (credentialNode fs (filepath.Join workingDir b.BindingGuid) k) =
        some (.file v) := hnode hsame
    have hne1 : filepath.Join (filepath.Join workingDir b.BindingGuid) k ≠ "" := hne
    have hq := hkeep (credentialNode fs (filepath.Join workingDir b.BindingGuid) k) (by
      intro kv2 hkv2 kv3 hkv3 e2 e3
      rw [hsame kv2 hkv2 e2, hsame kv3 hkv3 e3])
    simp only [credentialNode] at hq hnode1
    simp only [os.ReadFile, hne1, if_false, hcwd3, hq, hnode1]

/-- C3, amended. If the working directory is unwritable for the parsed set and
at least one binding of the set matches the type and provider, `Resolve`
returns an error and no handle list. -/
theorem Resolve_unwritable (environ : String → Option String)
    (unmarshal : String → Except GoError VcapServices) (order : VcapServices → VcapServices)
    (horder : ∀ m, (order m).Perm m)
    (typ provider workingDir : String) (fs : os.FS) (envVar : String) (s : VcapServices)
    (henv : environ "VCAP_SERVICES" = some envVar)
    (hparse : ParseVcapServices unmarshal envVar = .ok s)
    (hmatch : ∃ b ∈ allBindings s, b.Label = typ ∧ (provider = "" ∨ provider = b.Provider))
    (hunwritable : Unwritable fs workingDir s) :
    ∃ err, (Resolve environ unmarshal order typ provider workingDir fs).1 = .error err := by
  obtain ⟨b, hb, hlabel⟩ := hmatch
  have hb1 : b ∈ allBindings (order (s.FilterOnTypeAndProvider typ provider)) := by
    rw [mem_allBindings_perm _ _ (horder _), mem_allBindings_filter]
    exact ⟨hb, by simpa [matchesTypeAndProvider] using hlabel⟩
  cases hall : allBindings (order (s.FilterOnTypeAndProvider typ provider)) with
  | nil =>
    rw [hall] at hb1
    cases hb1
  | cons b0 rest =>
    have hb0 : b0 ∈ allBindings s := by
      have h1 : b0 ∈ allBindings (order (s.FilterOnTypeAndProvider typ provider)) := by
        rw [hall]
        exact List.mem_cons_self _ _
      rw [mem_allBindings_perm _ _ (horder _), mem_allBindings_filter] at h1
      exact h1.1
    have hfail := (hunwritable b0 hb0).1
    simp only [Resolve, henv, hparse, VcapServices.ToServiceBindings, servicesLoop_eq, hall,
      bindingsLoop, VcapBinding.ToServiceBinding]
    cases hm : os.MkdirAll fs (filepath.Join workingDir b0.BindingGuid) with
    | mk r fs1 =>
      rw [hm] at hfail
      cases r with
      | none => exact absurd rfl hfail
      | some err => exact ⟨err, rfl⟩

/-- C9. If, while `ToServiceBindings` visits the bindings in order, the
bindings `pre` are materialized and then making the directory or writing a
credential file of the binding `b` fails with the error `e`, then
`ToServiceBindings` returns no handle list and exactly `e`, the file system it
leaves is the one the failing call left (nothing is done for `b` after that
call nor for any later binding), and the directory and every credential file of
every earlier binding are still there. -/
theorem ToServiceBindings_failure (s : VcapServices) (workingDir : String) (fs : os.FS)
    (pre post : List VcapBinding) (b : VcapBinding) (handles : GoSlice Binding)
    (e : GoError) (fs2 : os.FS)
    (hs : allBindings s = pre ++ b :: post)
    (hpre : (bindingsLoop workingDir pre none fs).1 = .ok handles)
    (hfail : failingCall workingDir b (bindingsLoop workingDir pre none fs).2 e fs2) :
    s.ToServiceBindings workingDir fs = (.error e, fs2) ∧
      ∀ b1 ∈ pre, os.isDir fs2 (bindingNode fs workingDir b1) ∧
        ∀ kv ∈ b1.Credentials,
          os.isFile fs2 (credentialNode fs (filepath.Join workingDir b1.BindingGuid) kv.1) := by
  have hb := ToServiceBinding_of_failingCall workingDir b _ e fs2 hfail
  have hnodes := bindingsLoop_ok_nodes workingDir pre none handles fs hpre
  constructor
  · rw [VcapServices.ToServiceBindings, servicesLoop_eq, hs, bindingsLoop_append]
    cases hl : bindingsLoop workingDir pre none fs with
    | mk r fs1 =>
      rw [hl] at hpre hb
      simp only at hpre hb
      subst hpre
      simp only [bindingsLoop, hb]
  · intro b1 hb1
    obtain ⟨hd, hf⟩ := hnodes b1 hb1
    have e2 : fs2 = (b.ToServiceBinding workingDir (bindingsLoop workingDir pre none fs).2).2 := by
      rw [hb]
    rw [e2]
    exact ⟨ToServiceBinding_isDir _ _ _ _ hd,
      fun kv hkv => ToServiceBinding_isFile _ _ _ _ (hf kv hkv)⟩

/-- C10, amended. `Resolve` changes the file system only at the credential
files `Join(Join(workingDir, BindingGuid), k)` of the bindings that match the
filter and at the directories `Join(workingDir, BindingGuid)` of those bindings
and their missing parents, which were absent and become directories; every
other node is what it was, so a binding that does not match causes no directory
and no file. -/
theorem Resolve_frame (environ : String → Option String)
    (unmarshal : String → Except GoError VcapServices) (order : VcapServices → VcapServices)
    (horder : ∀ m, (order m).Perm m)
    (typ provider workingDir : String) (fs : os.FS) (envVar : String) (s : VcapServices)
    (henv : environ "VCAP_SERVICES" = some envVar)
    (hparse : ParseVcapServices unmarshal envVar = .ok s) (q : List String) :
    (Resolve environ unmarshal order typ provider workingDir fs).2.node q = fs.node q ∨
      (∃ b ∈ allBindings s,
        (b.Label = typ ∧ (provider = "" ∨ provider = b.Provider)) ∧
        q <+: os.resolve fs.cwd (filepath.Join workingDir b.BindingGuid) ∧
        fs.node q = none ∧
        (Resolve environ unmarshal order typ provider workingDir fs).2.node q = some .dir) ∨
      (∃ b ∈ allBindings s,
        (b.Label = typ ∧ (provider = "" ∨ provider = b.Provider)) ∧
        ∃ kv ∈ b.Credentials,
          q = os.resolve fs.cwd
            (filepath.Join (filepath.Join workingDir b.BindingGuid) kv.1)) := by
  have hmem : ∀ b, b ∈ allBindings (order (s.FilterOnTypeAndProvider typ provider)) →
      b ∈ allBindings s ∧ (b.Label = typ ∧ (provider = "" ∨ provider = b.Provider)) := by
    intro b hb
    rw [mem_allBindings_perm _ _ (horder _), mem_allBindings_filter] at hb
    exact ⟨hb.1, by simpa [matchesTypeAndProvider] using hb.2⟩
  have hn := bindingsLoop_node workingDir
    (allBindings (order (s.FilterOnTypeAndProvider typ provider))) none fs q
  have hfinal : (Resolve environ unmarshal order typ provider workingDir fs).2 =
      (bindingsLoop workingDir
        (allBindings (order (s.FilterOnTypeAndProvider typ provider))) none fs).2 := by
    simp only [Resolve, henv, hparse, VcapServices.ToServiceBindings, servicesLoop_eq]
    cases hl : bindingsLoop workingDir
        (allBindings (order (s.FilterOnTypeAndProvider typ provider))) none fs with
    | mk r fs1 => cases r <;> rfl
  rw [hfinal]
  rcases hn with h | ⟨b, hb, h1, h2, h3⟩ | ⟨b, hb, kv, hkv, h1⟩
  · exact Or.inl h
  · exact Or.inr (Or.inl ⟨b, (hmem b hb).1, (hmem b hb).2, h1, h2, h3⟩)
  · exact Or.inr (Or.inr ⟨b, (hmem b hb).1, (hmem b hb).2, kv, hkv, h1⟩)

/-! ## The claims on concrete inputs -/

/-- Witness of C1: the set of the test is well formed and filtering it on
`htpasswd` and `provider-1` leaves the first two bindings of the group. -/
theorem FilterOnTypeAndProvider_index_witness :
    GoMap.WF testServices ∧
      GoMap.index (testServices.FilterOnTypeAndProvider "htpasswd" "provider-1") "htpasswd" =
        [htpasswd1, htpasswd2] :=
  ⟨by unfold GoMap.WF; decide,
    (FilterOnTypeAndProvider_index testServices (by unfold GoMap.WF; decide)
      "htpasswd" "provider-1" "htpasswd").1.trans (by decide)⟩

/-- Witness of C4: without `VCAP_SERVICES` the result is the empty list and the
file system is untouched. -/
theorem Resolve_env_absent_witness :
    envWithout "VCAP_SERVICES" = none ∧
      Resolve envWithout testUnmarshal id "htpasswd" "" "/w" procFS = (.ok (some []), procFS) :=
  ⟨rfl, Resolve_env_absent envWithout rfl testUnmarshal id "htpasswd" "" "/w" procFS⟩

/-- Witness of C5: the content of the test `when VCAP_SERVICES is not valid
json` is rejected by the decoder and `Resolve` returns that error. -/
theorem Resolve_parse_error_witness :
    ParseVcapServices testUnmarshal "\x7b123" = .error (.SyntaxError "invalid character" 2) ∧
      Resolve (envWith "\x7b123") testUnmarshal id "htpasswd" "" "/w" procFS =
        (.error (.SyntaxError "invalid character" 2), procFS) :=
  ⟨by decide,
    Resolve_parse_error (envWith "\x7b123") testUnmarshal id "htpasswd" "" "/w" procFS
      "\x7b123" (.SyntaxError "invalid character" 2) rfl (by decide)⟩

/-- Witness of C7: the test `also filters on the provider` on the single
group. -/
theorem Resolve_single_group_paths_witness :
    (Resolve (envWith "single") testUnmarshal id "htpasswd" "provider-1" "/w" procFS).1 =
        .ok (some
          [{ Path := "/w/deadbeef-1",
             Entries := [(".htpasswd", NewEntry "/w/deadbeef-1/.htpasswd")] },
           { Path := "/w/deadbeef-2",
             Entries := [(".htpasswd", NewEntry "/w/deadbeef-2/.htpasswd")] }]) ∧
      (GoSlice.toList (some
          [({ Path := "/w/deadbeef-1",
              Entries := [(".htpasswd", NewEntry "/w/deadbeef-1/.htpasswd")] } : Binding),
           { Path := "/w/deadbeef-2",
             Entries := [(".htpasswd", NewEntry "/w/deadbeef-2/.htpasswd")] }])).map
        Binding.Path =
        [filepath.Join "/w" "deadbeef-1", filepath.Join "/w" "deadbeef-2"] :=
  ⟨by decide,
    (Resolve_single_group_paths (envWith "single") testUnmarshal id (fun m => List.Perm.refl m)
      "htpasswd" "provider-1" "/w" procFS "single" "htpasswd"
      [htpasswd1, htpasswd2, htpasswd3] _ rfl (by decide) (by decide)).2.trans (by decide)⟩

/-- Witness of C8: no binding of the test has the provider `provider-3`. -/
theorem Resolve_provider_without_match_witness :
    (∀ b ∈ allBindings testServices, ¬ (b.Label = "htpasswd" ∧ b.Provider = "provider-3")) ∧
      ∃ result,
        (Resolve (envWith "multiple") testUnmarshal id "htpasswd" "provider-3" "/w" procFS).1 =
          .ok result ∧ GoSlice.toList result = [] :=
  ⟨by decide,
    Resolve_provider_without_match (envWith "multiple") testUnmarshal id
      (fun m => List.Perm.refl m) "htpasswd" "provider-3" "/w" procFS "multiple" testServices
      rfl (by decide) (by decide) (by decide)⟩

/-- Counterexample to C2 as stated: the keys `a` and `a/` are distinct,
`ToServiceBinding` succeeds, both entries wrap `/w/g/a`, and reading the entry
of `a` yields `2`, the value of `a/`, not the value `1` of `a`. -/
theorem ToServiceBinding_entries_counterexample :
    GoMap.WF sameFile.Credentials ∧
      (sameFile.ToServiceBinding "/w" procFS).1 =
        .ok { Path := "/w/g",
              Entries := [("a", NewEntry "/w/g/a"), ("a/", NewEntry "/w/g/a")] } ∧
      GoMap.get? sameFile.Credentials "a" = some "1" ∧
      (NewEntry "/w/g/a").ReadString (sameFile.ToServiceBinding "/w" procFS).2 = .ok "2" := by
  refine ⟨by unfold GoMap.WF; decide, by decide, by decide, by decide⟩

/-- Witness of C2, amended: in `mixedKeys` the keys `a` and `a/` share a file
and the key `b` has its own; the entry of `b` reads `3`. -/
theorem ToServiceBinding_entries_witness :
    (mixedKeys.ToServiceBinding "/w" procFS).1 =
        .ok { Path := "/w/m",
              Entries := [("a", NewEntry "/w/m/a"), ("a/", NewEntry "/w/m/a"),
                ("b", NewEntry "/w/m/b")] } ∧
      GoMap.get? mixedKeys.Credentials "b" = some "3" ∧
      ∃ entry,
        GoMap.get?
          ([("a", NewEntry "/w/m/a"), ("a/", NewEntry "/w/m/a"),
            ("b", NewEntry "/w/m/b")] : GoMap Entry) "b" = some entry ∧
          entry.ReadString (mixedKeys.ToServiceBinding "/w" procFS).2 = .ok "3" :=
  ⟨by decide, by decide,
    (ToServiceBinding_entries mixedKeys "/w" procFS
      { Path := "/w/m",
        Entries := [("a", NewEntry "/w/m/a"), ("a/", NewEntry "/w/m/a"),
          ("b", NewEntry "/w/m/b")] }
      (by decide)).2.2.2 "b" "3" (by decide) (by decide)⟩

/-- Counterexample to C6 as stated: after the first run the file `/w/g/a` holds
`2`; a second run that visits the same credentials in the other order succeeds
and leaves `1` there, so the file system is not as the first run left it. -/
theorem ToServiceBinding_twice_counterexample :
    GoMap.WF sameFile.Credentials ∧
      (sameFile.ToServiceBinding "/w" procFS).1 =
        .ok { Path := "/w/g",
              Entries := [("a", NewEntry "/w/g/a"), ("a/", NewEntry "/w/g/a")] } ∧
      List.Perm [("a/", "2"), ("a", "1")] sameFile.Credentials ∧
      (VcapBinding.ToServiceBinding
        { sameFile with Credentials := [("a/", "2"), ("a", "1")] } "/w"
        (sameFile.ToServiceBinding "/w" procFS).2).1 =
        .ok { Path := "/w/g",
              Entries := [("a/", NewEntry "/w/g/a"), ("a", NewEntry "/w/g/a")] } ∧
      (sameFile.ToServiceBinding "/w" procFS).2.node ["w", "g", "a"] = some (.file "2") ∧
      (VcapBinding.ToServiceBinding
        { sameFile with Credentials := [("a/", "2"), ("a", "1")] } "/w"
        (sameFile.ToServiceBinding "/w" procFS).2).2.node ["w", "g", "a"] =
          some (.file "1") := by
  refine ⟨by unfold GoMap.WF; decide, by decide, List.Perm.swap _ _ _, by decide,
    by decide, by decide⟩

/-- Witness of C6, amended: `mixedKeys` is materialized twice, the second time
with the keys `a` and `a/` in the other order; the second run succeeds with the
same path and the file of `b` still holds `3`. -/
theorem ToServiceBinding_twice_witness :
    List.Perm [("a/", "2"), ("a", "1"), ("b", "3")] mixedKeys.Credentials ∧
      ∃ binding2,
        (VcapBinding.ToServiceBinding
          { mixedKeys with Credentials := [("a/", "2"), ("a", "1"), ("b", "3")] }
          "/w" (mixedKeys.ToServiceBinding "/w" procFS).2).1 = .ok binding2 ∧
        binding2.Path = "/w/m" ∧
        os.ReadFile (VcapBinding.ToServiceBinding
          { mixedKeys with Credentials := [("a/", "2"), ("a", "1"), ("b", "3")] }
          "/w" (mixedKeys.ToServiceBinding "/w" procFS).2).2
          (filepath.Join (filepath.Join "/w" mixedKeys.BindingGuid) "b") = .ok "3" := by
  refine ⟨List.Perm.swap _ _ _, ?_⟩
  obtain ⟨binding2, h1, h2, _, _, _, h6⟩ :=
    ToServiceBinding_twice mixedKeys "/w" procFS
      { Path := "/w/m",
        Entries := [("a", NewEntry "/w/m/a"), ("a/", NewEntry "/w/m/a"),
          ("b", NewEntry "/w/m/b")] }
      (by decide) [("a/", "2"), ("a", "1"), ("b", "3")] (List.Perm.swap _ _ _)
  exact ⟨binding2, h1, h2, h6 "b" "3" (by decide) (by decide)⟩

/-- Counterexample to C3 as stated: `/proc` is unwritable for the set of the
test, the content parses, and `Resolve` for the type `mysql`, which no binding
has, returns no error. -/
theorem Resolve_unwritable_counterexample :
    Unwritable procFS "/proc" testServices ∧
      ParseVcapServices testUnmarshal "multiple" = .ok testServices ∧
      (Resolve (envWith "multiple") testUnmarshal id "mysql" "" "/proc" procFS).1 =
        .ok none := by
  refine ⟨by unfold Unwritable; decide, by decide, by decide⟩

/-- Witness of C3, amended: the test `when writing the credentials to disk
fails`, on the set with several bindings. -/
theorem Resolve_unwritable_witness :
    Unwritable procFS "/proc" testServices ∧
      ∃ err, (Resolve (envWith "multiple") testUnmarshal id "htpasswd" "" "/proc" procFS).1 =
        .error err :=
  ⟨by unfold Unwritable; decide,
    Resolve_unwritable (envWith "multiple") testUnmarshal id (fun m => List.Perm.refl m)
      "htpasswd" "" "/proc" procFS "multiple" testServices rfl (by decide)
      ⟨htpasswd1, by decide, by decide⟩ (by unfold Unwritable; decide)⟩

/-- Witness of C9: `htpasswd1` is materialized, the second credential of
`missingParent` cannot be written, and `htpasswd3` is never visited: the last
call recorded is the failing one. -/
theorem ToServiceBindings_failure_witness :
    (bindingsLoop "/w" [htpasswd1] none procFS).1 =
        .ok (some [{ Path := "/w/deadbeef-1",
                     Entries := [(".htpasswd", NewEntry "/w/deadbeef-1/.htpasswd")] }]) ∧
      failingServices.ToServiceBindings "/w" procFS =
        (.error (.PathError "open" ["w", "deadbeef-5", "sub", "y"] .ENOENT), afterFailure) ∧
      afterFailure.calls =
        [os.Call.MkdirAll "/w/deadbeef-1",
         os.Call.WriteFile "/w/deadbeef-1/.htpasswd" "user:password",
         os.Call.MkdirAll "/w/deadbeef-5",
         os.Call.WriteFile "/w/deadbeef-5/x" "1",
         os.Call.WriteFile "/w/deadbeef-5/sub/y" "2"] :=
  ⟨by decide,
    (ToServiceBindings_failure failingServices "/w" procFS [htpasswd1] [htpasswd3]
      missingParent _ (.PathError "open" ["w", "deadbeef-5", "sub", "y"] .ENOENT) afterFailure
      (by decide) (by decide : (bindingsLoop "/w" [htpasswd1] none procFS).1 =
        .ok (some [{ Path := "/w/deadbeef-1",
                     Entries := [(".htpasswd", NewEntry "/w/deadbeef-1/.htpasswd")] }]))
      (Or.inr ⟨by decide, [("x", "1")], "sub/y", "2", [], by decide,
        ⟨[("x", NewEntry "/w/deadbeef-5/x")], by decide⟩, by decide, rfl⟩)).1,
    by decide⟩

/-- Counterexample to C10 as stated: `/w` does not exist before `Resolve` and is
a directory after it, and `/w` is neither the directory nor a credential file
of any binding. -/
theorem Resolve_frame_counterexample :
    procFS.node ["w"] = none ∧
      (Resolve (envWith "multiple") testUnmarshal id "htpasswd" "" "/w" procFS).2.node ["w"] =
        some .dir ∧
      ∀ b ∈ allBindings testServices,
        ["w"] ≠ os.resolve procFS.cwd (filepath.Join "/w" b.BindingGuid) ∧
        ∀ kv ∈ b.Credentials,
          ["w"] ≠ os.resolve procFS.cwd
            (filepath.Join (filepath.Join "/w" b.BindingGuid) kv.1) := by
  refine ⟨by decide, by decide, by decide⟩

/-- Witness of C10, amended: the directory of the binding of the other service,
which does not match, is not made. -/
theorem Resolve_frame_witness :
    ParseVcapServices testUnmarshal "multiple" = .ok testServices ∧
      ((Resolve (envWith "multiple") testUnmarshal id "htpasswd" "" "/w" procFS).2.node
          ["w", "deadbeef-4"] = procFS.node ["w", "deadbeef-4"] ∨
        (∃ b ∈ allBindings testServices,
          (b.Label = "htpasswd" ∧ ("" = "" ∨ "" = b.Provider)) ∧
          ["w", "deadbeef-4"] <+: os.resolve procFS.cwd (filepath.Join "/w" b.BindingGuid) ∧
          procFS.node ["w", "deadbeef-4"] = none ∧
          (Resolve (envWith "multiple") testUnmarshal id "htpasswd" "" "/w" procFS).2.node
            ["w", "deadbeef-4"] = some .dir) ∨
        (∃ b ∈ allBindings testServices,
          (b.Label = "htpasswd" ∧ ("" = "" ∨ "" = b.Provider)) ∧
          ∃ kv ∈ b.Credentials,
            ["w", "deadbeef-4"] = os.resolve procFS.cwd
              (filepath.Join (filepath.Join "/w" b.BindingGuid) kv.1))) :=
  ⟨by decide,
    Resolve_frame (envWith "multiple") testUnmarshal id (fun m => List.Perm.refl m)
      "htpasswd" "" "/w" procFS "multiple" testServices rfl (by decide) ["w", "deadbeef-4"]⟩

end Httpd
